import Mathlib

/-!
Verification of the pixel-buffer transformation kernels in
`packages/wasm-camera-fx/cpp/effects.cpp`.

Modelling conventions (shallow embedding):
* A raster is a flat `List ℕ` of bytes (4 bytes per pixel, R,G,B,A, row-major);
  byte reads are `List.getD _ _ 0`, matching the C++ contract that all in-bounds
  reads hit the buffer (the default 0 stands for the unspecified value an
  out-of-bounds C++ read would return).
* C++ `double` arithmetic is modelled exactly: by `ℚ` for the purely rational
  kernels and by `ℝ` where the code calls transcendental functions
  (`atan2`, `cos`, `sin`, `pow`).  The bilinear sampler is generic over a
  `LinearOrderedField` with a `FloorRing` so the very same definition is used
  at `ℚ` (direct claims about the sampler) and at `ℝ` (the remap filters).
* `static_cast<uint8_t>` applied to a non-negative in-range double is exact
  truncation: `trunc8 x = ⌊x⌋.toNat`.  Every cast in the source is applied to
  a value in `[0, 256)` under the raster validity contract.
-/

/-- Truncating conversion to a byte, the model of `static_cast<uint8_t>` on a
value that the surrounding code keeps in `[0, 256)`. -/
def trunc8 {K : Type} [LinearOrderedField K] [FloorRing K] (x : K) : ℕ :=
  (Int.floor x).toNat

/-- The C++ helper `clamp`: clamp a double to `[0, 255]` and cast to `uint8_t`. -/
def clamp {K : Type} [LinearOrderedField K] [FloorRing K] (x : K) : ℕ :=
  trunc8 (max 0 (min 255 x))

/-- The C++ helper structure `HSL` (all three fields are `double`). -/
structure HSL where
  h : ℚ
  s : ℚ
  l : ℚ

/-- Core of `rgbToHsl`, on the already-normalised channel values
`rd = r/255`, `gd = g/255`, `bd = b/255`. -/
def hslAux (rd gd bd : ℚ) : HSL :=
  let maxv := max rd (max gd bd)
  let minv := min rd (min gd bd)
  let l := (maxv + minv) / 2
  if maxv = minv then
    ⟨0, 0, l⟩
  else
    let d := maxv - minv
    let s := if 1/2 < l then d / (2 - maxv - minv) else d / (maxv + minv)
    let h0 :=
      if maxv = rd then (gd - bd) / d + (if gd < bd then 6 else 0)
      else if maxv = gd then (bd - rd) / d + 2
      else (rd - gd) / d + 4
    ⟨h0 / 6 * 360, s, l⟩

/-- The C++ helper `rgbToHsl`. -/
def rgbToHsl (r g b : ℕ) : HSL :=
  hslAux ((r : ℚ) / 255) ((g : ℚ) / 255) ((b : ℚ) / 255)

/-- Scalar value computed by the C++ helper `hueToRgb` before the final
`* 255.0` and `uint8_t` cast: wrap `t` once into `[0,1]`, then the standard
four-branch hue interpolation. -/
def hueVal (p q t0 : ℚ) : ℚ :=
  let t1 := if t0 < 0 then t0 + 1 else t0
  let t := if 1 < t1 then t1 - 1 else t1
  if t < 1/6 then p + (q - p) * 6 * t
  else if t < 1/2 then q
  else if t < 2/3 then p + (q - p) * (2/3 - t) * 6
  else p

/-- The C++ helper `hueToRgb` (each branch of the source multiplies its value
by `255.0` and casts; factoring that common tail out of the branches is
semantically identical). -/
def hueToRgb (p q t : ℚ) : ℕ :=
  trunc8 (hueVal p q t * 255)

/-- The C++ helper `hslToRgb`, returning the `(r, g, b)` bytes. -/
def hslToRgb (c : HSL) : ℕ × ℕ × ℕ :=
  let h := c.h / 360
  if c.s = 0 then
    let v := trunc8 (c.l * 255)
    (v, v, v)
  else
    let q := if c.l < 1/2 then c.l * (1 + c.s) else c.l + c.s - c.l * c.s
    let p := 2 * c.l - q
    (hueToRgb p q (h + 1/3), hueToRgb p q h, hueToRgb p q (h - 1/3))

/-- Luminance byte `static_cast<uint8_t>(0.299 r + 0.587 g + 0.114 b)`, used
verbatim by both `grayscale` and the Sobel intensity computation. -/
def lumaByte (r g b : ℕ) : ℕ :=
  trunc8 ((299/1000 : ℚ) * r + (587/1000 : ℚ) * g + (114/1000 : ℚ) * b)

section Bilinear

variable {K : Type} [LinearOrderedField K] [FloorRing K]

/-- Coordinate clamp of `sampleBilinear`:
`std::max(0.0, std::min((double)n - 1.001, u))` (the literal `1.001` is the
rational `1001/1000`). -/
def clampCoord (n : ℕ) (u : K) : K :=
  max 0 (min ((n : K) - 1001/1000) u)

/-- Integer cell coordinate `static_cast<int>(u)` of the clamped coordinate
(the clamped value is non-negative, so the C++ truncation is `⌊·⌋`). -/
def sampleX (n : ℕ) (u : K) : ℕ :=
  (Int.floor (clampCoord n u)).toNat

/-- Fractional interpolation weight `u - x` of `sampleBilinear`. -/
def sampleRatio (n : ℕ) (u : K) : K :=
  clampCoord n u - (sampleX n u : K)

/-- The four byte base offsets `ptr1, ptr2, ptr3, ptr4` read by
`sampleBilinear`, exactly as the pointer arithmetic computes them:
`ptr1 = (y*width + x)*4`, `ptr2 = ptr1 + 4`, `ptr3 = ptr1 + width*4`,
`ptr4 = ptr3 + 4`. -/
def sampleCorners (w h : ℕ) (u v : K) : ℕ × ℕ × ℕ × ℕ :=
  let base := (sampleX h v * w + sampleX w u) * 4
  (base, base + 4, base + w * 4, base + w * 4 + 4)

/-- The C++ helper `sampleBilinear`: clamp `(u, v)`, read the four corner
pixels, and blend each channel with the standard bilinear weights. -/
def sampleBilinear (src : List ℕ) (w h : ℕ) (u v : K) : ℕ × ℕ × ℕ × ℕ :=
  let x := sampleX w u
  let y := sampleX h v
  let uR := sampleRatio w u
  let vR := sampleRatio h v
  let uO := 1 - uR
  let vO := 1 - vR
  let chan := fun c =>
    trunc8 (((src.getD ((y * w + x) * 4 + c) 0 : K) * uO +
             (src.getD ((y * w + x) * 4 + 4 + c) 0 : K) * uR) * vO +
            ((src.getD ((y * w + x) * 4 + w * 4 + c) 0 : K) * uO +
             (src.getD ((y * w + x) * 4 + w * 4 + 4 + c) 0 : K) * uR) * vR)
  (chan 0, chan 1, chan 2, chan 3)

end Bilinear

/-!  In-place tonal kernels.  Each C++ kernel loops `for (i = 0; i < numPixels*4;
i += 4)`, rewriting bytes `i, i+1, i+2` from the old `(r, g, b)` and leaving the
alpha byte `i+3` untouched.  `mapPixLoop f n img` is that loop with pixel count
`n` and per-pixel map `f`; it stops early if the buffer runs out (where the C++
would read out of bounds). -/
def mapPixLoop (f : ℕ → ℕ → ℕ → ℕ × ℕ × ℕ) : ℕ → List ℕ → List ℕ
  | n + 1, r :: g :: b :: a :: rest =>
      (f r g b).1 :: (f r g b).2.1 :: (f r g b).2.2 :: a :: mapPixLoop f n rest
  | _ + 1, l => l
  | 0, l => l

/-- Per-pixel body of the C++ `grayscale` kernel. -/
def grayPix (r g b : ℕ) : ℕ × ℕ × ℕ :=
  (lumaByte r g b, lumaByte r g b, lumaByte r g b)

/-- The C++ kernel `grayscale(imageData, width, height)` (in place). -/
def grayscale (img : List ℕ) (w h : ℕ) : List ℕ :=
  mapPixLoop grayPix (w * h) img

/-- The hue-normalisation loop of `hueRotate`:
`while (hsl.h < 0) hsl.h += 360.0;`. -/
def while360 (x : ℚ) : ℚ :=
  if x < 0 then while360 (x + 360) else x
termination_by (Int.ceil (-x / 360)).toNat
decreasing_by
  have hpos : (0 : ℚ) < -x / 360 := by
    apply div_pos
    · linarith
    · norm_num
  have hceil : 0 < Int.ceil (-x / 360) := Int.ceil_pos.mpr hpos
  have harg : -(x + 360) / 360 = -x / 360 - 1 := by ring
  rw [harg, Int.ceil_sub_one]
  omega

/-- C `fmod` (round-toward-zero remainder), as used by `hueRotate` on a
non-negative hue. -/
def fmodQ (x y : ℚ) : ℚ :=
  x - y * ((x / y).num / ((x / y).den : ℤ) : ℤ)

/-- Per-pixel body of the C++ `hueRotate` kernel. -/
def hueRotatePix (angleDegrees : ℚ) (r g b : ℕ) : ℕ × ℕ × ℕ :=
  let hsl := rgbToHsl r g b
  hslToRgb ⟨fmodQ (while360 (hsl.h + angleDegrees)) 360, hsl.s, hsl.l⟩

/-- The C++ kernel `hueRotate(imageData, width, height, angleDegrees)`. -/
def hueRotate (img : List ℕ) (w h : ℕ) (angleDegrees : ℚ) : List ℕ :=
  mapPixLoop (hueRotatePix angleDegrees) (w * h) img

/-- Per-channel body of the C++ `brightnessContrast` kernel:
`clamp(128 + (1 + contrast) * (c - 128) + brightness * 255)`. -/
def bcChan (brightness contrast : ℚ) (c : ℕ) : ℕ :=
  clamp (128 + (1 + contrast) * ((c : ℚ) - 128) + brightness * 255)

/-- The C++ kernel `brightnessContrast(imageData, width, height, brightness,
contrast)`. -/
def brightnessContrast (img : List ℕ) (w h : ℕ) (brightness contrast : ℚ) :
    List ℕ :=
  mapPixLoop
    (fun r g b =>
      (bcChan brightness contrast r, bcChan brightness contrast g,
        bcChan brightness contrast b))
    (w * h) img

/-- Per-channel body of the C++ `gammaCorrection` kernel:
`clamp(pow(c / 255.0, 1 / max(0.01, gamma)) * 255.0)`.  Real exponentiation is
`Real.rpow`, so this definition lives over `ℝ`. -/
noncomputable def gammaChan (gamma : ℝ) (c : ℕ) : ℕ :=
  clamp (((c : ℝ) / 255) ^ ((1 : ℝ) / max (1/100) gamma) * 255)

/-- The C++ kernel `gammaCorrection(imageData, width, height, gamma)`. -/
noncomputable def gammaCorrection (img : List ℕ) (w h : ℕ) (gamma : ℝ) :
    List ℕ :=
  mapPixLoop
    (fun r g b => (gammaChan gamma r, gammaChan gamma g, gammaChan gamma b))
    (w * h) img

/-!  Sobel edge detection.  The C++ kernel receives a caller-allocated output
buffer and writes it in two passes (interior convolution, then border
blackout).  The output buffer is modelled as a total byte map `Buf`; starting
from an arbitrary `Buf` captures that its prior contents are unspecified. -/
def Buf : Type := ℕ → ℕ

/-- Write one byte of the output buffer. -/
def writeByte (buf : Buf) (i v : ℕ) : Buf :=
  fun j => if j = i then v else buf j

/-- Write the four bytes of the pixel whose first byte is `base`, in source
order R, G, B, A. -/
def writePx (buf : Buf) (base r g b a : ℕ) : Buf :=
  writeByte (writeByte (writeByte (writeByte buf base r) (base + 1) g)
    (base + 2) b) (base + 3) a

/-- Byte offset `(y*width + x)*4` of pixel `(x, y)`. -/
def pixBase (w x y : ℕ) : ℕ :=
  (y * w + x) * 4

/-- The fixed horizontal Sobel kernel `gx[3][3]`, indexed `gx[ky+1][kx+1]`. -/
def gxCoef : ℕ → ℕ → ℤ
  | 0, 0 => -1 | 0, 1 => 0 | 0, 2 => 1
  | 1, 0 => -2 | 1, 1 => 0 | 1, 2 => 2
  | 2, 0 => -1 | 2, 1 => 0 | 2, 2 => 1
  | _, _ => 0

/-- The fixed vertical Sobel kernel `gy[3][3]`, indexed `gy[ky+1][kx+1]`. -/
def gyCoef : ℕ → ℕ → ℤ
  | 0, 0 => -1 | 0, 1 => -2 | 0, 2 => -1
  | 1, 0 => 0 | 1, 1 => 0 | 1, 2 => 0
  | 2, 0 => 1 | 2, 1 => 2 | 2, 2 => 1
  | _, _ => 0

/-- Sobel window intensity: the grayscale luminance byte of input pixel
`(x, y)`. -/
def intensityAt (input : List ℕ) (w x y : ℕ) : ℕ :=
  lumaByte (input.getD (pixBase w x y) 0) (input.getD (pixBase w x y + 1) 0)
    (input.getD (pixBase w x y + 2) 0)

/-- Gradient sum `sumX` at interior pixel `(x, y)` (the window offsets
`kx, ky ∈ {-1,0,1}` are written `kx, ky ∈ {0,1,2}` shifted by one, valid since
`x, y ≥ 1` at every use).  The nine kernel weights and intensities are
integers, so the C++ double accumulator is exact. -/
def sobelSumX (input : List ℕ) (w x y : ℕ) : ℤ :=
  Finset.sum (Finset.range 3) fun ky =>
    Finset.sum (Finset.range 3) fun kx =>
      gxCoef ky kx * intensityAt input w (x - 1 + kx) (y - 1 + ky)

/-- Gradient sum `sumY` at interior pixel `(x, y)`. -/
def sobelSumY (input : List ℕ) (w x y : ℕ) : ℤ :=
  Finset.sum (Finset.range 3) fun ky =>
    Finset.sum (Finset.range 3) fun kx =>
      gyCoef ky kx * intensityAt input w (x - 1 + kx) (y - 1 + ky)

/-- Edge byte `static_cast<uint8_t>(std::min(255.0, sqrt(sumX² + sumY²)))`.
`sumX² + sumY²` is a non-negative integer (at most `2·1020²`), and truncating
the correctly-rounded double square root of such an integer is its integer
square root, so the cast-of-min is `min 255 (Nat.sqrt (sumX² + sumY²))`. -/
def edgeAt (input : List ℕ) (w x y : ℕ) : ℕ :=
  min 255
    (Nat.sqrt ((sobelSumX input w x y ^ 2 + sobelSumY input w x y ^ 2).toNat))

/-- The RGBA bytes the interior pass writes at pixel `(x, y)`: the edge value
in R, G, B and the input pixel's alpha. -/
def sobelPix (input : List ℕ) (w : ℕ) (x y : ℕ) : ℕ × ℕ × ℕ × ℕ :=
  (edgeAt input w x y, edgeAt input w x y, edgeAt input w x y,
    input.getD (pixBase w x y + 3) 0)

/-- Row-major pixel coordinate list of a nested
`for (y …) for (x …)` loop: `y` ranges over `ys`, `x` over `xs`. -/
def coordList (xs ys : List ℕ) : List (ℕ × ℕ) :=
  ys.flatMap fun y => xs.map fun x => (x, y)

/-- A pass over coordinates `coords`, writing `pix x y` to pixel `(x, y)` of
the output buffer, in list order. -/
def writePass (w : ℕ) (pix : ℕ → ℕ → ℕ × ℕ × ℕ × ℕ) (coords : List (ℕ × ℕ))
    (buf : Buf) : Buf :=
  coords.foldl
    (fun b p =>
      writePx b (pixBase w p.1 p.2) (pix p.1 p.2).1 (pix p.1 p.2).2.1
        (pix p.1 p.2).2.2.1 (pix p.1 p.2).2.2.2)
    buf

/-- Border predicate of the Sobel blackout pass:
`y == 0 || y == height-1 || x == 0 || x == width-1`. -/
def isBorder (w h x y : ℕ) : Bool :=
  y == 0 || y == h - 1 || x == 0 || x == w - 1

/-- Interior pass of `sobelEdgeDetection`: `y` from `1` to `height-2`, `x`
from `1` to `width-2` (row-major); `List.range' 1 (h-2)` is exactly
`1, …, h-2`, matching `for (y = 1; y < height-1; ++y)`. -/
def sobelInterior (input : List ℕ) (w h : ℕ) (buf : Buf) : Buf :=
  writePass w (sobelPix input w) (coordList (List.range' 1 (w - 2)) (List.range' 1 (h - 2))) buf

/-- Border pass of `sobelEdgeDetection`: the full row-major scan restricted to
border pixels, each overwritten with `(0, 0, 0, 255)`. -/
def sobelBorder (w h : ℕ) (buf : Buf) : Buf :=
  writePass w (fun _ _ => (0, 0, 0, 255))
    ((coordList (List.range w) (List.range h)).filter fun p => isBorder w h p.1 p.2) buf

/-- The C++ kernel `sobelEdgeDetection(inputData, outputData, width, height)`:
interior convolution pass, then border blackout pass. -/
def sobelEdgeDetection (input : List ℕ) (w h : ℕ) (buf : Buf) : Buf :=
  sobelBorder w h (sobelInterior input w h buf)

/-!  Geometric remap filters (spiral and wormhole).  Both compute a polar
source coordinate per output pixel with `atan2`, `cos`, `sin`, so they live
over `ℝ`; `atan2 y x` is the principal-value argument of the complex number
`x + y·i`, which is exactly C's `atan2`. -/
noncomputable def atan2 (y x : ℝ) : ℝ :=
  Complex.arg (Complex.mk x y)

/-- Source coordinate `(srcX, srcY)` computed by `spiralDistortion` for output
pixel `(x, y)`. -/
noncomputable def spiralSrc (w h : ℕ) (spiralFactor : ℝ) (x y : ℕ) : ℝ × ℝ :=
  let centerX : ℝ := (w : ℝ) / 2
  let centerY : ℝ := (h : ℝ) / 2
  let maxRadius := Real.sqrt (centerX * centerX + centerY * centerY)
  let dx := (x : ℝ) - centerX
  let dy := (y : ℝ) - centerY
  let radius := Real.sqrt (dx * dx + dy * dy)
  let angle := atan2 dy dx
  let distortedAngle := angle + spiralFactor * (radius / maxRadius)
  (centerX + radius * Real.cos distortedAngle,
    centerY + radius * Real.sin distortedAngle)

/-- RGBA bytes written by `spiralDistortion` at output pixel `(x, y)`. -/
noncomputable def spiralPix (input : List ℕ) (w h : ℕ) (spiralFactor : ℝ)
    (x y : ℕ) : ℕ × ℕ × ℕ × ℕ :=
  sampleBilinear input w h (spiralSrc w h spiralFactor x y).1
    (spiralSrc w h spiralFactor x y).2

/-- The C++ kernel `spiralDistortion(inputData, outputData, width, height,
spiralFactor)`: the output raster laid out flat, pixel `p` of the row-major
scan being `(x, y) = (p % w, p / w)`, written as bytes `R, G, B, A`. -/
noncomputable def spiralDistortion (input : List ℕ) (w h : ℕ)
    (spiralFactor : ℝ) : List ℕ :=
  (List.range (w * h)).flatMap fun p =>
    [(spiralPix input w h spiralFactor (p % w) (p / w)).1,
     (spiralPix input w h spiralFactor (p % w) (p / w)).2.1,
     (spiralPix input w h spiralFactor (p % w) (p / w)).2.2.1,
     (spiralPix input w h spiralFactor (p % w) (p / w)).2.2.2]

/-- Source coordinate computed by `wormholeDistortion` for output pixel
`(x, y)`, with `pullFactor` clamped to `[0, 0.99]` and the `radius == 0`
guard for the normalised radius. -/
noncomputable def wormholeSrc (w h : ℕ) (pullFactor : ℝ) (x y : ℕ) : ℝ × ℝ :=
  let centerX : ℝ := (w : ℝ) / 2
  let centerY : ℝ := (h : ℝ) / 2
  let maxRadius := Real.sqrt (centerX * centerX + centerY * centerY)
  let pf := max 0 (min (99/100) pullFactor)
  let dx := (x : ℝ) - centerX
  let dy := (y : ℝ) - centerY
  let radius := Real.sqrt (dx * dx + dy * dy)
  let angle := atan2 dy dx
  let normalizedRadius := if radius = 0 then 0 else radius / maxRadius
  let distortedRadius := max 0 (radius * (1 - pf * normalizedRadius))
  (centerX + distortedRadius * Real.cos angle,
    centerY + distortedRadius * Real.sin angle)

/-- RGBA bytes written by `wormholeDistortion` at output pixel `(x, y)`. -/
noncomputable def wormholePix (input : List ℕ) (w h : ℕ) (pullFactor : ℝ)
    (x y : ℕ) : ℕ × ℕ × ℕ × ℕ :=
  sampleBilinear input w h (wormholeSrc w h pullFactor x y).1
    (wormholeSrc w h pullFactor x y).2

/-- The C++ kernel `wormholeDistortion(inputData, outputData, width, height,
pullFactor)`, laid out like `spiralDistortion`. -/
noncomputable def wormholeDistortion (input : List ℕ) (w h : ℕ)
    (pullFactor : ℝ) : List ℕ :=
  (List.range (w * h)).flatMap fun p =>
    [(wormholePix input w h pullFactor (p % w) (p / w)).1,
     (wormholePix input w h pullFactor (p % w) (p / w)).2.1,
     (wormholePix input w h pullFactor (p % w) (p / w)).2.2.1,
     (wormholePix input w h pullFactor (p % w) (p / w)).2.2.2]

/-!  Bit-exact IEEE-754 binary64 model.  The exact-field model above idealises
`double` as exact rational/real arithmetic; that idealisation is sound where
the claims' arithmetic is exactly representable, but two spec properties
(grayscale idempotence, hue-loop termination) hinge on binary64 rounding of
the decimal literals and of additions, so they are settled against the
rounding model below.  `fpRound` is round-to-nearest, ties-to-even, onto the
53-bit significand grid `2 ^ (Int.log 2 |x| - 52)` (normal range only;
overflow and subnormal thresholds are far outside the magnitudes these
kernels produce). -/
def roundEven (x : ℚ) : ℤ :=
  let f := Int.floor x
  if x - f < 1/2 then f
  else if 1/2 < x - f then f + 1
  else if f % 2 = 0 then f else f + 1

/-- Round a rational to the nearest IEEE-754 binary64 value (ties to even). -/
def fpRound (x : ℚ) : ℚ :=
  if x = 0 then 0
  else if 0 < x then
    (roundEven (x / 2 ^ (Int.log 2 x - 52)) : ℚ) * 2 ^ (Int.log 2 x - 52)
  else
    -((roundEven (-x / 2 ^ (Int.log 2 (-x) - 52)) : ℚ) * 2 ^ (Int.log 2 (-x) - 52))

/-- The luminance byte as the compiled program computes it: the literals
`0.299`, `0.587`, `0.114` are binary64 values (not exact decimals: as doubles
they sum to `(2^53 - 1) / 2^53 < 1`), the byte-to-double conversions are
exact, and every product and sum rounds to binary64, associated exactly as in
the source expression `0.299 * r + 0.587 * g + 0.114 * b`. -/
def lumaByteD (r g b : ℕ) : ℕ :=
  (Int.floor (fpRound
    (fpRound (fpRound (fpRound (299/1000) * (r : ℚ)) +
        fpRound (fpRound (587/1000) * (g : ℚ))) +
      fpRound (fpRound (114/1000) * (b : ℚ))))).toNat

/-- Per-pixel body of `grayscale` under binary64 arithmetic. -/
def grayPixD (r g b : ℕ) : ℕ × ℕ × ℕ :=
  (lumaByteD r g b, lumaByteD r g b, lumaByteD r g b)

/-- The `grayscale` kernel as the compiled program executes it (binary64
luminance weights). -/
def grayscaleD (img : List ℕ) (w h : ℕ) : List ℕ :=
  mapPixLoop grayPixD (w * h) img

/-- One iteration of the `hueRotate` normalisation loop as the compiled
program executes it: `hsl.h += 360.0` is a binary64 addition. -/
def hueStepD (h : ℚ) : ℚ :=
  fpRound (h + 360)

section EvalHelpers

variable {K : Type} [LinearOrderedField K] [FloorRing K]

/-- Evaluate `trunc8` once the argument is bracketed between `n` and `n + 1`. -/
theorem trunc8_eq (x : K) (n : ℕ) (h1 : (n : K) ≤ x) (h2 : x < n + 1) :
    trunc8 x = n := by
  unfold trunc8
  have h : Int.floor x = (n : ℤ) := by
    rw [Int.floor_eq_iff]
    constructor
    · exact_mod_cast h1
    · push_cast
      exact h2
  rw [h]
  exact Int.toNat_natCast n

/-- Evaluate `trunc8` on a natural-number argument. -/
theorem trunc8_natCast (n : ℕ) : trunc8 ((n : K)) = n := by
  apply trunc8_eq
  · exact le_refl _
  · exact_mod_cast lt_add_one (n : K)

end EvalHelpers

/-!  Structural lemmas about the in-place pixel loop. -/

theorem getD_cons4 (x1 x2 x3 x4 : ℕ) (l : List ℕ) (n : ℕ) :
    (x1 :: x2 :: x3 :: x4 :: l).getD (n + 4) 0 = l.getD n 0 := rfl

theorem mapPixLoop_length (f : ℕ → ℕ → ℕ → ℕ × ℕ × ℕ) :
    ∀ (n : ℕ) (img : List ℕ), (mapPixLoop f n img).length = img.length := by
  intro n
  induction n with
  | zero => intro img; rfl
  | succ m ih =>
    intro img
    match img with
    | [] => rfl
    | [r] => rfl
    | [r, g] => rfl
    | [r, g, b] => rfl
    | r :: g :: b :: a :: rest => simp [mapPixLoop, ih]

theorem mapPixLoop_getD (f : ℕ → ℕ → ℕ → ℕ × ℕ × ℕ) :
    ∀ (n : ℕ) (img : List ℕ), img.length = 4 * n → ∀ p, p < n →
      (mapPixLoop f n img).getD (4*p) 0 =
          (f (img.getD (4*p) 0) (img.getD (4*p+1) 0) (img.getD (4*p+2) 0)).1 ∧
      (mapPixLoop f n img).getD (4*p+1) 0 =
          (f (img.getD (4*p) 0) (img.getD (4*p+1) 0) (img.getD (4*p+2) 0)).2.1 ∧
      (mapPixLoop f n img).getD (4*p+2) 0 =
          (f (img.getD (4*p) 0) (img.getD (4*p+1) 0) (img.getD (4*p+2) 0)).2.2 ∧
      (mapPixLoop f n img).getD (4*p+3) 0 = img.getD (4*p+3) 0 := by
  intro n
  induction n with
  | zero => intro img _ p hp; omega
  | succ m ih =>
    intro img hlen p hp
    match img with
    | r :: g :: b :: a :: rest =>
      have hrest : rest.length = 4 * m := by
        simp only [List.length_cons] at hlen
        omega
      match p with
      | 0 => simp [mapPixLoop, List.getD]
      | q + 1 =>
        have e0 : 4 * (q + 1) = 4 * q + 4 := by ring
        have e1 : 4 * (q + 1) + 1 = 4 * q + 1 + 4 := by ring
        have e2 : 4 * (q + 1) + 2 = 4 * q + 2 + 4 := by ring
        have e3 : 4 * (q + 1) + 3 = 4 * q + 3 + 4 := by ring
        have hq : q < m := by omega
        have := ih rest hrest q hq
        simp only [mapPixLoop, e0, e1, e2, e3, getD_cons4]
        exact this

theorem mapPixLoop_id (f : ℕ → ℕ → ℕ → ℕ × ℕ × ℕ)
    (hf : ∀ r g b : ℕ, r ≤ 255 → g ≤ 255 → b ≤ 255 → f r g b = (r, g, b)) :
    ∀ (n : ℕ) (img : List ℕ), img.length = 4 * n → (∀ x ∈ img, x ≤ 255) →
      mapPixLoop f n img = img := by
  intro n
  induction n with
  | zero => intro img _ _; rfl
  | succ m ih =>
    intro img hlen hb
    match img with
    | r :: g :: b :: a :: rest =>
      have hrest : rest.length = 4 * m := by
        simp only [List.length_cons] at hlen
        omega
      have hfr := hf r g b (by simp at hb; omega) (by simp at hb; omega)
        (by simp at hb; omega)
      have hbr : ∀ x ∈ rest, x ≤ 255 := by
        intro x hx
        exact hb x (by simp [hx])
      simp [mapPixLoop, hfr, ih rest hrest hbr]

theorem clamp_natCast {K : Type} [LinearOrderedField K] [FloorRing K]
    (c : ℕ) (hc : c ≤ 255) : clamp ((c : K)) = c := by
  unfold clamp
  have h1 : min (255 : K) (c : K) = (c : K) := by
    apply min_eq_right
    exact_mod_cast hc
  have h2 : max (0 : K) (c : K) = (c : K) := by
    apply max_eq_right
    exact_mod_cast Nat.zero_le c
  rw [h1, h2, trunc8_natCast]

theorem bcChan_zero (c : ℕ) (hc : c ≤ 255) : bcChan 0 0 c = c := by
  unfold bcChan
  have h : (128 : ℚ) + (1 + 0) * ((c : ℚ) - 128) + 0 * 255 = (c : ℚ) := by ring
  rw [h, clamp_natCast c hc]

theorem gammaChan_one (c : ℕ) (hc : c ≤ 255) : gammaChan 1 c = c := by
  unfold gammaChan
  have hm : max (1/100 : ℝ) 1 = 1 := by
    apply max_eq_right
    norm_num
  rw [hm]
  have h1 : (1 : ℝ) / 1 = 1 := by norm_num
  rw [h1, Real.rpow_one]
  have h2 : ((c : ℝ) / 255) * 255 = (c : ℝ) := by
    field_simp
  rw [h2, clamp_natCast c hc]

/-!  The while-loop of `hueRotate` terminates with a non-negative hue. -/

theorem while360_spec (x : ℚ) :
    ∃ n : ℕ, 0 ≤ x + 360 * n ∧ while360 x = x + 360 * n := by
  by_cases hx : x < 0
  · obtain ⟨n, hn0, hneq⟩ := while360_spec (x + 360)
    refine ⟨n + 1, ?_, ?_⟩
    · push_cast
      linarith
    · unfold while360
      rw [if_pos hx, hneq]
      push_cast
      ring
  · refine ⟨0, by push_cast; linarith, ?_⟩
    unfold while360
    rw [if_neg hx]
    push_cast
    ring
termination_by (Int.ceil (-x / 360)).toNat
decreasing_by
  have hpos : (0 : ℚ) < -x / 360 := by
    apply div_pos
    · linarith
    · norm_num
  have hceil : 0 < Int.ceil (-x / 360) := Int.ceil_pos.mpr hpos
  have harg : -(x + 360) / 360 = -x / 360 - 1 := by ring
  rw [harg, Int.ceil_sub_one]
  omega

/-!  Claim theorems for the in-place kernels. -/

/-- C5: `brightnessContrast` with `brightness = 0`, `contrast = 0` and
`gammaCorrection` with `gamma = 1.0` leave every byte of a valid raster
(length `w*h*4`, bytes in `[0, 255]`) unchanged: both are the identity
transform. -/
theorem c5_identity_transforms (img : List ℕ) (w h : ℕ)
    (hlen : img.length = w * h * 4) (hb : ∀ x ∈ img, x ≤ 255) :
    brightnessContrast img w h 0 0 = img ∧ gammaCorrection img w h 1 = img := by
  have hlen4 : img.length = 4 * (w * h) := by rw [hlen]; ring
  constructor
  · apply mapPixLoop_id _ _ (w * h) img hlen4 hb
    intro r g b hr hg hb2
    rw [bcChan_zero r hr, bcChan_zero g hg, bcChan_zero b hb2]
  · apply mapPixLoop_id _ _ (w * h) img hlen4 hb
    intro r g b hr hg hb2
    rw [gammaChan_one r hr, gammaChan_one g hg, gammaChan_one b hb2]

theorem c5_identity_transforms_witness :
    brightnessContrast [0, 128, 255, 7] 1 1 0 0 = [0, 128, 255, 7] ∧
    gammaCorrection [0, 128, 255, 7] 1 1 1 = [0, 128, 255, 7] :=
  c5_identity_transforms [0, 128, 255, 7] 1 1 (by decide) (by decide)

/-- C9: the in-place tonal kernels `hueRotate`, `brightnessContrast` and
`gammaCorrection` leave the alpha byte of every pixel unchanged, for every
parameter value. -/
theorem c9_alpha_untouched (img : List ℕ) (w h : ℕ) (angle br ct : ℚ)
    (gamma : ℝ) (hlen : img.length = w * h * 4) (p : ℕ) (hp : p < w * h) :
    (hueRotate img w h angle).getD (4*p+3) 0 = img.getD (4*p+3) 0 ∧
    (brightnessContrast img w h br ct).getD (4*p+3) 0 = img.getD (4*p+3) 0 ∧
    (gammaCorrection img w h gamma).getD (4*p+3) 0 = img.getD (4*p+3) 0 := by
  have hlen4 : img.length = 4 * (w * h) := by rw [hlen]; ring
  exact ⟨(mapPixLoop_getD _ (w * h) img hlen4 p hp).2.2.2,
    (mapPixLoop_getD _ (w * h) img hlen4 p hp).2.2.2,
    (mapPixLoop_getD _ (w * h) img hlen4 p hp).2.2.2⟩

theorem c9_alpha_untouched_witness :
    (hueRotate [1, 2, 3, 9] 1 1 (-500)).getD 3 0 = [1, 2, 3, 9].getD 3 0 ∧
    (brightnessContrast [1, 2, 3, 9] 1 1 (1/2) (-1/4)).getD 3 0 = [1, 2, 3, 9].getD 3 0 ∧
    (gammaCorrection [1, 2, 3, 9] 1 1 2).getD 3 0 = [1, 2, 3, 9].getD 3 0 :=
  c9_alpha_untouched [1, 2, 3, 9] 1 1 (-500) (1/2) (-1/4) 2 (by decide) 0 (by decide)

/-!  Evaluation lemmas for the bilinear sampler's clamped coordinates. -/

section BilinearLemmas

variable {K : Type} [LinearOrderedField K] [FloorRing K]

theorem trunc8_eq_natCast (x : K) (n : ℕ) (h : x = (n : K)) : trunc8 x = n := by
  rw [h]
  exact trunc8_natCast n

theorem clampCoord_natCast (n x : ℕ) (hx : x + 2 ≤ n) :
    clampCoord n ((x : K)) = (x : K) := by
  unfold clampCoord
  have hcast : ((x : K)) + 2 ≤ (n : K) := by exact_mod_cast hx
  have h1 : min ((n : K) - 1001/1000) (x : K) = (x : K) := by
    apply min_eq_right
    linarith
  rw [h1]
  apply max_eq_right
  exact_mod_cast Nat.zero_le x

theorem sampleX_natCast (n x : ℕ) (hx : x + 2 ≤ n) :
    sampleX n ((x : K)) = x := by
  unfold sampleX
  rw [clampCoord_natCast n x hx, Int.floor_natCast, Int.toNat_natCast]

theorem sampleRatio_natCast (n x : ℕ) (hx : x + 2 ≤ n) :
    sampleRatio n ((x : K)) = 0 := by
  unfold sampleRatio
  rw [clampCoord_natCast n x hx, sampleX_natCast n x hx, sub_self]

theorem clampCoord_one_zero : clampCoord 1 ((0 : K)) = 0 := by
  unfold clampCoord
  rw [Nat.cast_one]
  have h1 : min ((1 : K) - 1001/1000) 0 = (1 : K) - 1001/1000 := by
    apply min_eq_left
    norm_num
  rw [h1]
  apply max_eq_left
  norm_num

theorem sampleX_one_zero : sampleX 1 ((0 : K)) = 0 := by
  unfold sampleX
  rw [clampCoord_one_zero, Int.floor_zero, Int.toNat_zero]

theorem clampCoord_two_one : clampCoord 2 ((1 : K)) = 999/1000 := by
  unfold clampCoord
  rw [Nat.cast_ofNat]
  have h1 : min ((2 : K) - 1001/1000) 1 = (2 : K) - 1001/1000 := by
    apply min_eq_left
    norm_num
  rw [h1]
  have h2 : (2 : K) - 1001/1000 = 999/1000 := by norm_num
  rw [h2]
  apply max_eq_right
  norm_num

theorem sampleX_two_one : sampleX 2 ((1 : K)) = 0 := by
  unfold sampleX
  rw [clampCoord_two_one]
  have h : Int.floor ((999/1000 : K)) = 0 := by
    rw [Int.floor_eq_zero_iff]
    constructor <;> norm_num
  rw [h, Int.toNat_zero]

theorem sampleRatio_two_one : sampleRatio 2 ((1 : K)) = 999/1000 := by
  unfold sampleRatio
  rw [clampCoord_two_one, sampleX_two_one, Nat.cast_zero, sub_zero]

theorem clampCoord_two_zero : clampCoord 2 ((0 : K)) = 0 := by
  unfold clampCoord
  rw [Nat.cast_ofNat]
  have h1 : min ((2 : K) - 1001/1000) 0 = (0 : K) := by
    apply min_eq_right
    norm_num
  rw [h1, max_self]

theorem sampleX_two_zero : sampleX 2 ((0 : K)) = 0 := by
  unfold sampleX
  rw [clampCoord_two_zero, Int.floor_zero, Int.toNat_zero]

theorem sampleRatio_two_zero : sampleRatio 2 ((0 : K)) = 0 := by
  unfold sampleRatio
  rw [clampCoord_two_zero, sampleX_two_zero, Nat.cast_zero, sub_zero]

/-- Sampling at an integer coordinate `(x, y)` with `x` not in the last
column and `y` not in the last row returns exactly the source pixel: the
clamp leaves the coordinate alone and all interpolation weights degenerate. -/
theorem sampleBilinear_natCoord (src : List ℕ) (w h x y : ℕ)
    (hx : x + 2 ≤ w) (hy : y + 2 ≤ h) :
    sampleBilinear src w h ((x : K)) ((y : K)) =
      (src.getD (pixBase w x y) 0, src.getD (pixBase w x y + 1) 0,
        src.getD (pixBase w x y + 2) 0, src.getD (pixBase w x y + 3) 0) := by
  simp only [sampleBilinear]
  rw [sampleX_natCast w x hx, sampleX_natCast h y hy,
    sampleRatio_natCast w x hx, sampleRatio_natCast h y hy]
  simp only [pixBase, Nat.add_zero, Prod.mk.injEq]
  refine ⟨?_, ?_, ?_, ?_⟩ <;>
    · apply trunc8_eq_natCast
      ring

end BilinearLemmas

/-- Shared edge-blend evaluation: sampling the 2×2 raster whose pixel `(1,0)`
has channel value 255 (all other pixels 0) at the integer coordinate `(1, 0)`
yields 254: the clamp moves `u = 1` to `0.999` and truncation of
`255 * 0.999 = 254.745` loses one count.  Generic in the scalar field, so it
serves both the direct sampler claim (at `ℚ`) and the remap filters (at `ℝ`). -/
theorem sampleBilinear_edge_blend {K : Type} [LinearOrderedField K] [FloorRing K] :
    (sampleBilinear [0,0,0,0, 255,255,255,255, 0,0,0,0, 0,0,0,0] 2 2 ((1 : K)) 0).1 = 254 := by
  simp only [sampleBilinear]
  rw [sampleX_two_one, sampleX_two_zero, sampleRatio_two_one, sampleRatio_two_zero]
  rw [show (([0,0,0,0, 255,255,255,255, 0,0,0,0, 0,0,0,0] : List ℕ).getD ((0*2+0)*4+0) 0) = 0 by decide,
    show (([0,0,0,0, 255,255,255,255, 0,0,0,0, 0,0,0,0] : List ℕ).getD ((0*2+0)*4+4+0) 0) = 255 by decide,
    show (([0,0,0,0, 255,255,255,255, 0,0,0,0, 0,0,0,0] : List ℕ).getD ((0*2+0)*4+2*4+0) 0) = 0 by decide,
    show (([0,0,0,0, 255,255,255,255, 0,0,0,0, 0,0,0,0] : List ℕ).getD ((0*2+0)*4+2*4+4+0) 0) = 0 by decide]
  apply trunc8_eq <;> push_cast <;> norm_num

/-- C1: the claim asserts that for every raster with `width ≥ 1`, `height ≥ 1`
the four corner pixels read by `sampleBilinear` lie within `[0, w*h*4)`.  The
code violates this: at `width = height = 1` and `(u, v) = (0, 0)` the clamp
yields cell `(0, 0)` and the neighbour pointers `ptr2`, `ptr3`, `ptr4` read
byte offsets `4`, `4` and `8..11`, all outside `[0, 4)`.  (For
`width, height ≥ 2` the clamp does keep all four corners in bounds; the
failure is confined to one-pixel-wide or one-pixel-tall rasters.) -/
theorem c1_corner_read_out_of_bounds :
    sampleCorners 1 1 ((0 : ℚ)) 0 = (0, 4, 4, 8) ∧ 1 * 1 * 4 ≤ 8 := by
  constructor
  · unfold sampleCorners
    rw [sampleX_one_zero]
  · norm_num

/-- C2 fails as stated: sampling at the integer coordinate `(1, 0)` of a 2×2
raster does not return the source pixel `(1, 0)`.  The clamp pulls `u = 1`
down to `0.999`, so the result blends the pixel with its left neighbour
(weight `0.999` vs `0.001`) and truncation loses one count: `254 ≠ 255`. -/
theorem c2_sample_integer_counterexample :
    (sampleBilinear [0,0,0,0, 255,255,255,255, 0,0,0,0, 0,0,0,0] 2 2 ((1 : ℚ)) 0).1 = 254 ∧
    ([0,0,0,0, 255,255,255,255, 0,0,0,0, 0,0,0,0] : List ℕ).getD (pixBase 2 1 0) 0 = 255 ∧
    (254 : ℕ) ≠ 255 :=
  ⟨sampleBilinear_edge_blend, by decide, by decide⟩

/-- C2 (amended): for every source raster and every integer coordinate
`(x, y)` with `0 ≤ x < width - 1` and `0 ≤ y < height - 1`, `sampleBilinear`
at `(u, v) = (x, y)` returns exactly the four channel bytes of source pixel
`(x, y)`.  (In the last column or last row the `width - 1.001` clamp blends
with the neighbouring pixel, as the counterexample shows.) -/
theorem c2_sample_integer_exact (src : List ℕ) (w h x y : ℕ)
    (hx : x + 1 < w) (hy : y + 1 < h) :
    sampleBilinear src w h ((x : ℚ)) ((y : ℚ)) =
      (src.getD (pixBase w x y) 0, src.getD (pixBase w x y + 1) 0,
        src.getD (pixBase w x y + 2) 0, src.getD (pixBase w x y + 3) 0) :=
  sampleBilinear_natCoord src w h x y (by omega) (by omega)

theorem c2_sample_integer_exact_witness :
    0 + 1 < 2 ∧
    sampleBilinear [9,8,7,6, 5,4,3,2, 1,2,3,4, 5,6,7,8] 2 2 (((0 : ℕ) : ℚ)) (((0 : ℕ) : ℚ)) =
      (9, 8, 7, 6) :=
  ⟨by decide,
    (c2_sample_integer_exact [9,8,7,6, 5,4,3,2, 1,2,3,4, 5,6,7,8] 2 2 0 0
      (by decide) (by decide)).trans (by decide)⟩

/-!  Characterisation of the write passes of `sobelEdgeDetection`. -/

theorem writePx_untouched (buf : Buf) (base r g b a j : ℕ)
    (h : j < base ∨ base + 4 ≤ j) :
    writePx buf base r g b a j = buf j := by
  unfold writePx writeByte
  rw [if_neg (by omega), if_neg (by omega), if_neg (by omega), if_neg (by omega)]

theorem writePx_get (buf : Buf) (base r g b a c : ℕ) (hc : c < 4) :
    writePx buf base r g b a (base + c) = [r, g, b, a].getD c 0 := by
  unfold writePx writeByte
  interval_cases c
  · rw [if_neg (by omega), if_neg (by omega), if_neg (by omega), if_pos (by omega)]
    rfl
  · rw [if_neg (by omega), if_neg (by omega), if_pos (by omega)]
    rfl
  · rw [if_neg (by omega), if_pos (by omega)]
    rfl
  · rw [if_pos (by omega)]
    rfl

theorem byte_ranges_disjoint (m mp c : ℕ) (hc : c < 4) (hne : mp ≠ m) :
    m * 4 + c < mp * 4 ∨ mp * 4 + 4 ≤ m * 4 + c := by
  omega

theorem writePass_nil (w : ℕ) (pix : ℕ → ℕ → ℕ × ℕ × ℕ × ℕ) (buf : Buf) :
    writePass w pix [] buf = buf := rfl

theorem writePass_cons (w : ℕ) (pix : ℕ → ℕ → ℕ × ℕ × ℕ × ℕ) (q : ℕ × ℕ)
    (coords : List (ℕ × ℕ)) (buf : Buf) :
    writePass w pix (q :: coords) buf =
      writePass w pix coords
        (writePx buf (pixBase w q.1 q.2) (pix q.1 q.2).1 (pix q.1 q.2).2.1
          (pix q.1 q.2).2.2.1 (pix q.1 q.2).2.2.2) := rfl

theorem writePass_untouched (w : ℕ) (pix : ℕ → ℕ → ℕ × ℕ × ℕ × ℕ)
    (coords : List (ℕ × ℕ)) (j : ℕ) :
    ∀ buf : Buf,
      (∀ p ∈ coords, j < pixBase w p.1 p.2 ∨ pixBase w p.1 p.2 + 4 ≤ j) →
      writePass w pix coords buf j = buf j := by
  induction coords with
  | nil => intro buf _; rfl
  | cons q rest ih =>
    intro buf hall
    have h1 := ih (writePx buf (pixBase w q.1 q.2) (pix q.1 q.2).1 (pix q.1 q.2).2.1
      (pix q.1 q.2).2.2.1 (pix q.1 q.2).2.2.2)
      (fun p hp => hall p (List.mem_cons_of_mem q hp))
    rw [writePass_cons, h1]
    exact writePx_untouched _ _ _ _ _ _ _ (hall q (List.mem_cons_self q rest))

theorem writePass_get (w : ℕ) (pix : ℕ → ℕ → ℕ × ℕ × ℕ × ℕ)
    (coords : List (ℕ × ℕ)) (x y c : ℕ) (hc : c < 4) :
    ∀ buf : Buf, (x, y) ∈ coords →
      (∀ p ∈ coords, pixBase w p.1 p.2 = pixBase w x y → p = (x, y)) →
      writePass w pix coords buf (pixBase w x y + c) =
        [(pix x y).1, (pix x y).2.1, (pix x y).2.2.1, (pix x y).2.2.2].getD c 0 := by
  induction coords with
  | nil => intro buf hmem _; cases hmem
  | cons q rest ih =>
    intro buf hmem huniq
    by_cases hq : (x, y) ∈ rest
    · rw [writePass_cons]
      exact ih _ hq (fun p hp he => huniq p (List.mem_cons_of_mem q hp) he)
    · have hqe : q = (x, y) := by
        rcases List.mem_cons.mp hmem with h1 | h1
        · exact h1.symm
        · exact absurd h1 hq
      subst hqe
      rw [writePass_cons, writePass_untouched]
      · exact writePx_get _ _ _ _ _ _ _ hc
      · intro p hp
        have hpne : p ≠ (x, y) := fun he => hq (he ▸ hp)
        have hbne : (p.2 * w + p.1) ≠ (y * w + x) := by
          intro he
          exact hpne (huniq p (List.mem_cons_of_mem _ hp)
            (by unfold pixBase; rw [he]))
        unfold pixBase
        exact byte_ranges_disjoint (y * w + x) (p.2 * w + p.1) c hc hbne

theorem mem_coordList (xs ys : List ℕ) (x y : ℕ) :
    (x, y) ∈ coordList xs ys ↔ x ∈ xs ∧ y ∈ ys := by
  unfold coordList
  simp only [List.mem_flatMap, List.mem_map, Prod.mk.injEq]
  constructor
  · rintro ⟨a, ha, b, hb, rfl, rfl⟩
    exact ⟨hb, ha⟩
  · rintro ⟨hx, hy⟩
    exact ⟨y, hy, x, hx, rfl, rfl⟩

theorem pixBase_inj (w x y x' y' : ℕ) (hx : x < w) (hx' : x' < w)
    (h : pixBase w x' y' = pixBase w x y) : (x', y') = (x, y) := by
  unfold pixBase at h
  have h4 : y' * w + x' = y * w + x := by omega
  have hx'' : (w * y' + x') % w = x' % w := Nat.mul_add_mod w y' x'
  have hx''' : (w * y + x) % w = x % w := Nat.mul_add_mod w y x
  have hxx : x' = x := by
    have e : (w * y' + x') = (w * y + x) := by
      rw [Nat.mul_comm w y', Nat.mul_comm w y]
      omega
    rw [e] at hx''
    rw [Nat.mod_eq_of_lt hx'] at hx''
    rw [Nat.mod_eq_of_lt hx] at hx'''
    omega
  subst hxx
  have hyy : y' = y := by
    have hw : 0 < w := by omega
    have : y' * w = y * w := by omega
    exact Nat.eq_of_mul_eq_mul_right hw this
  rw [hyy]

theorem sobelBorder_border_byte (w h x y c : ℕ) (hc : c < 4) (hx : x < w)
    (hy : y < h) (hb : isBorder w h x y = true) (buf : Buf) :
    sobelBorder w h buf (pixBase w x y + c) = [0, 0, 0, 255].getD c 0 := by
  unfold sobelBorder
  apply writePass_get _ _ _ x y c hc buf
  · rw [List.mem_filter]
    constructor
    · rw [mem_coordList]
      simp only [List.mem_range]
      exact ⟨hx, hy⟩
    · exact hb
  · rintro ⟨p1, p2⟩ hp he
    have hp1 : p1 < w := by
      have h1 := (List.mem_filter.mp hp).1
      rw [mem_coordList] at h1
      simpa using h1.1
    exact pixBase_inj w x y p1 p2 hx hp1 he

theorem sobelBorder_skip (w h x y c : ℕ) (hc : c < 4) (hx : x < w) (hy : y < h)
    (hb : ¬ isBorder w h x y = true) (buf : Buf) :
    sobelBorder w h buf (pixBase w x y + c) = buf (pixBase w x y + c) := by
  unfold sobelBorder
  apply writePass_untouched
  rintro ⟨p1, p2⟩ hp
  have hmem := List.mem_filter.mp hp
  have hp1 : p1 < w := by
    have h1 := hmem.1
    rw [mem_coordList] at h1
    simpa using h1.1
  have hbne : (p2 * w + p1) ≠ (y * w + x) := by
    intro he
    have : (p1, p2) = (x, y) := by
      apply pixBase_inj w x y p1 p2 hx hp1
      unfold pixBase
      rw [he]
    simp only [Prod.mk.injEq] at this
    apply hb
    rw [← this.1, ← this.2]
    exact hmem.2
  unfold pixBase
  exact byte_ranges_disjoint (y * w + x) (p2 * w + p1) c hc hbne

theorem sobelInterior_byte (input : List ℕ) (w h x y c : ℕ) (hc : c < 4)
    (h1x : 1 ≤ x) (hxw : x + 1 < w) (h1y : 1 ≤ y) (hyh : y + 1 < h)
    (buf : Buf) :
    sobelInterior input w h buf (pixBase w x y + c) =
      [(sobelPix input w x y).1, (sobelPix input w x y).2.1,
        (sobelPix input w x y).2.2.1, (sobelPix input w x y).2.2.2].getD c 0 := by
  unfold sobelInterior
  apply writePass_get _ _ _ x y c hc buf
  · rw [mem_coordList]
    constructor <;> · rw [List.mem_range'_1]; omega
  · rintro ⟨p1, p2⟩ hp he
    have hp1 : p1 < w := by
      rw [mem_coordList] at hp
      have := hp.1
      rw [List.mem_range'_1] at this
      omega
    exact pixBase_inj w x y p1 p2 (by omega) hp1 he

/-- C4: after `sobelEdgeDetection`, every border pixel (`x ∈ {0, w-1}` or
`y ∈ {0, h-1}`) is exactly `(0, 0, 0, 255)`, and every byte of every output
pixel has been written: the result at any valid byte offset does not depend
on the prior contents of the output buffer, including the degenerate sizes
`w < 3` or `h < 3` (where the interior pass is empty and every pixel is a
border pixel). -/
theorem c4_sobel_border_and_full_overwrite (input : List ℕ) (w h : ℕ)
    (buf1 buf2 : Buf) (hw : 1 ≤ w) (hh : 1 ≤ h) (x y c : ℕ)
    (hx : x < w) (hy : y < h) (hc : c < 4) :
    (isBorder w h x y = true →
      sobelEdgeDetection input w h buf1 (pixBase w x y + c) =
        [0, 0, 0, 255].getD c 0) ∧
    sobelEdgeDetection input w h buf1 (pixBase w x y + c) =
      sobelEdgeDetection input w h buf2 (pixBase w x y + c) := by
  unfold sobelEdgeDetection
  by_cases hb : isBorder w h x y = true
  · have e1 := sobelBorder_border_byte w h x y c hc hx hy hb
      (sobelInterior input w h buf1)
    have e2 := sobelBorder_border_byte w h x y c hc hx hy hb
      (sobelInterior input w h buf2)
    exact ⟨fun _ => e1, e1.trans e2.symm⟩
  · refine ⟨fun hcontra => absurd hcontra hb, ?_⟩
    rw [sobelBorder_skip w h x y c hc hx hy hb,
      sobelBorder_skip w h x y c hc hx hy hb]
    have hside : 1 ≤ x ∧ x + 1 < w ∧ 1 ≤ y ∧ y + 1 < h := by
      simp only [isBorder, Bool.or_eq_true, beq_iff_eq] at hb
      push_neg at hb
      omega
    rw [sobelInterior_byte input w h x y c hc hside.1 hside.2.1 hside.2.2.1
        hside.2.2.2 buf1,
      sobelInterior_byte input w h x y c hc hside.1 hside.2.1 hside.2.2.1
        hside.2.2.2 buf2]

theorem c4_sobel_border_and_full_overwrite_witness :
    (isBorder 2 2 1 0 = true →
      sobelEdgeDetection [1,2,3,4, 5,6,7,8, 9,10,11,12, 13,14,15,16] 2 2
        (fun _ => 0) (pixBase 2 1 0 + 3) = [0, 0, 0, 255].getD 3 0) ∧
    sobelEdgeDetection [1,2,3,4, 5,6,7,8, 9,10,11,12, 13,14,15,16] 2 2
        (fun _ => 0) (pixBase 2 1 0 + 3) =
      sobelEdgeDetection [1,2,3,4, 5,6,7,8, 9,10,11,12, 13,14,15,16] 2 2
        (fun _ => 17) (pixBase 2 1 0 + 3) :=
  c4_sobel_border_and_full_overwrite [1,2,3,4, 5,6,7,8, 9,10,11,12, 13,14,15,16]
    2 2 (fun _ => 0) (fun _ => 17) (by decide) (by decide) 1 0 3
    (by decide) (by decide) (by decide)

/-!  Polar geometry facts for the remap filters. -/

theorem sqrt_mul_cos_atan2 (dy dx : ℝ) :
    Real.sqrt (dx * dx + dy * dy) * Real.cos (atan2 dy dx) = dx := by
  unfold atan2
  by_cases hz : Complex.mk dx dy = 0
  · have hdx : dx = 0 := by
      have := congrArg Complex.re hz
      simpa using this
    have hdy : dy = 0 := by
      have := congrArg Complex.im hz
      simpa using this
    simp [hdx, hdy]
  · have habs : Complex.abs (Complex.mk dx dy) = Real.sqrt (dx * dx + dy * dy) := by
      rw [Complex.abs_apply, Complex.normSq_mk]
    have hne : Complex.abs (Complex.mk dx dy) ≠ 0 := Complex.abs.ne_zero hz
    rw [Complex.cos_arg hz, ← habs, mul_comm, div_mul_cancel₀ _ hne]

theorem sqrt_mul_sin_atan2 (dy dx : ℝ) :
    Real.sqrt (dx * dx + dy * dy) * Real.sin (atan2 dy dx) = dy := by
  unfold atan2
  by_cases hz : Complex.mk dx dy = 0
  · have hdx : dx = 0 := by
      have := congrArg Complex.re hz
      simpa using this
    have hdy : dy = 0 := by
      have := congrArg Complex.im hz
      simpa using this
    simp [hdx, hdy]
  · have habs : Complex.abs (Complex.mk dx dy) = Real.sqrt (dx * dx + dy * dy) := by
      rw [Complex.abs_apply, Complex.normSq_mk]
    have hne : Complex.abs (Complex.mk dx dy) ≠ 0 := Complex.abs.ne_zero hz
    rw [Complex.sin_arg, ← habs, mul_comm, div_mul_cancel₀ _ hne]

/-- With `spiralFactor = 0` the spiral source coordinate is the output pixel
itself (in exact arithmetic): the angle is undistorted and
`radius * (cos, sin)(angle) = (dx, dy)`. -/
theorem spiralSrc_zero (w h x y : ℕ) : spiralSrc w h 0 x y = ((x : ℝ), (y : ℝ)) := by
  simp only [spiralSrc, zero_mul, add_zero]
  rw [sqrt_mul_cos_atan2, sqrt_mul_sin_atan2]
  simp only [Prod.mk.injEq]
  constructor <;> ring

/-- With `pullFactor = 0` the wormhole source coordinate is the output pixel
itself: the clamp keeps the factor at 0, the distorted radius is the radius. -/
theorem wormholeSrc_zero (w h x y : ℕ) :
    wormholeSrc w h 0 x y = ((x : ℝ), (y : ℝ)) := by
  simp only [wormholeSrc]
  have hmin : min ((99:ℝ)/100) 0 = 0 := min_eq_right (by norm_num)
  rw [hmin, max_self]
  simp only [zero_mul, mul_zero, sub_zero, mul_one]
  rw [max_eq_right (Real.sqrt_nonneg _), sqrt_mul_cos_atan2, sqrt_mul_sin_atan2]
  simp only [Prod.mk.injEq]
  constructor <;> ring

/-!  Byte layout of the remap output rasters. -/

theorem getD_append_left (l1 l2 : List ℕ) (n : ℕ) (h : n < l1.length) :
    (l1 ++ l2).getD n 0 = l1.getD n 0 := by
  simp only [List.getD_eq_getElem?_getD]
  rw [List.getElem?_append_left h]

theorem getD_append_right (l1 l2 : List ℕ) (n : ℕ) (h : l1.length ≤ n) :
    (l1 ++ l2).getD n 0 = l2.getD (n - l1.length) 0 := by
  simp only [List.getD_eq_getElem?_getD]
  rw [List.getElem?_append_right h]

theorem flatMapChunk_length (g : ℕ → ℕ × ℕ × ℕ × ℕ) (n : ℕ) :
    ((List.range n).flatMap fun q =>
      [(g q).1, (g q).2.1, (g q).2.2.1, (g q).2.2.2]).length = 4 * n := by
  induction n with
  | zero => rfl
  | succ m ih =>
    rw [List.range_succ, List.flatMap_append, List.length_append, ih]
    simp [List.flatMap_cons]
    omega

theorem flatMapChunk_getD (g : ℕ → ℕ × ℕ × ℕ × ℕ) (n p c : ℕ)
    (hp : p < n) (hc : c < 4) :
    ((List.range n).flatMap fun q =>
        [(g q).1, (g q).2.1, (g q).2.2.1, (g q).2.2.2]).getD (4*p+c) 0 =
      [(g p).1, (g p).2.1, (g p).2.2.1, (g p).2.2.2].getD c 0 := by
  induction n with
  | zero => omega
  | succ m ih =>
    rw [List.range_succ, List.flatMap_append]
    by_cases hpm : p < m
    · rw [getD_append_left]
      · exact ih hpm
      · rw [flatMapChunk_length]
        omega
    · have hpe : p = m := by omega
      subst hpe
      rw [getD_append_right]
      · rw [flatMapChunk_length, show 4*p+c - 4*p = c by omega]
        simp [List.flatMap_cons]
      · rw [flatMapChunk_length]
        omega

/-- C6 fails as stated: with distortion factor 0 both remap filters write the
output pixel `(1, 0)` of this 2×2 raster as 254 while the input byte is 255.
The polar transform does return the exact source coordinate `(1, 0)`, but the
bilinear sampler's edge clamp (`width - 1.001`) blends in the left neighbour
and truncation loses one count in the last column (and likewise last row). -/
theorem c6_zero_factor_counterexample :
    (spiralDistortion [0,0,0,0, 255,255,255,255, 0,0,0,0, 0,0,0,0] 2 2 0).getD 4 0 = 254 ∧
    (wormholeDistortion [0,0,0,0, 255,255,255,255, 0,0,0,0, 0,0,0,0] 2 2 0).getD 4 0 = 254 ∧
    ([0,0,0,0, 255,255,255,255, 0,0,0,0, 0,0,0,0] : List ℕ).getD 4 0 = 255 ∧
    (254 : ℕ) ≠ 255 := by
  refine ⟨?_, ?_, by decide, by decide⟩
  · show (spiralDistortion [0,0,0,0, 255,255,255,255, 0,0,0,0, 0,0,0,0] 2 2 0).getD (4*1+0) 0 = 254
    unfold spiralDistortion
    rw [flatMapChunk_getD
      (fun p => spiralPix [0,0,0,0, 255,255,255,255, 0,0,0,0, 0,0,0,0] 2 2 0 (p % 2) (p / 2))
      (2*2) 1 0 (by norm_num) (by norm_num)]
    show (spiralPix [0,0,0,0, 255,255,255,255, 0,0,0,0, 0,0,0,0] 2 2 0 1 0).1 = 254
    unfold spiralPix
    simp only [spiralSrc_zero, Nat.cast_one, Nat.cast_zero]
    exact sampleBilinear_edge_blend
  · show (wormholeDistortion [0,0,0,0, 255,255,255,255, 0,0,0,0, 0,0,0,0] 2 2 0).getD (4*1+0) 0 = 254
    unfold wormholeDistortion
    rw [flatMapChunk_getD
      (fun p => wormholePix [0,0,0,0, 255,255,255,255, 0,0,0,0, 0,0,0,0] 2 2 0 (p % 2) (p / 2))
      (2*2) 1 0 (by norm_num) (by norm_num)]
    show (wormholePix [0,0,0,0, 255,255,255,255, 0,0,0,0, 0,0,0,0] 2 2 0 1 0).1 = 254
    unfold wormholePix
    simp only [wormholeSrc_zero, Nat.cast_one, Nat.cast_zero]
    exact sampleBilinear_edge_blend

/-- C6 (amended): with distortion factor 0, `spiralDistortion` and
`wormholeDistortion` reproduce the input raster exactly at every pixel that is
not in the last column or last row (`x < width - 1`, `y < height - 1`); at
those edge pixels the sampler's clamp can blend with the neighbouring pixel,
as the counterexample shows. -/
theorem c6_zero_factor_reproduces_interior (input : List ℕ) (w h x y c : ℕ)
    (hx : x + 1 < w) (hy : y + 1 < h) (hc : c < 4) :
    (spiralDistortion input w h 0).getD (pixBase w x y + c) 0 =
      input.getD (pixBase w x y + c) 0 ∧
    (wormholeDistortion input w h 0).getD (pixBase w x y + c) 0 =
      input.getD (pixBase w x y + c) 0 := by
  have hpw : y * w + x < w * h := by
    calc y * w + x < y * w + w := by omega
    _ = (y + 1) * w := (Nat.succ_mul y w).symm
    _ ≤ h * w := Nat.mul_le_mul_right w (by omega)
    _ = w * h := Nat.mul_comm h w
  have hidx : pixBase w x y + c = 4 * (y * w + x) + c := by
    unfold pixBase
    ring
  have hmod : (y * w + x) % w = x := by
    rw [Nat.mul_comm y w, Nat.mul_add_mod]
    exact Nat.mod_eq_of_lt (by omega)
  have hdiv : (y * w + x) / w = y := by
    rw [Nat.mul_comm y w, Nat.mul_add_div (by omega)]
    rw [Nat.div_eq_of_lt (by omega)]
    omega
  constructor
  · rw [hidx]
    unfold spiralDistortion
    rw [flatMapChunk_getD (fun p => spiralPix input w h 0 (p % w) (p / w))
      (w * h) (y * w + x) c hpw hc]
    rw [hmod, hdiv]
    unfold spiralPix
    simp only [spiralSrc_zero]
    rw [sampleBilinear_natCoord input w h x y (by omega) (by omega)]
    rw [← hidx]
    interval_cases c <;> simp
  · rw [hidx]
    unfold wormholeDistortion
    rw [flatMapChunk_getD (fun p => wormholePix input w h 0 (p % w) (p / w))
      (w * h) (y * w + x) c hpw hc]
    rw [hmod, hdiv]
    unfold wormholePix
    simp only [wormholeSrc_zero]
    rw [sampleBilinear_natCoord input w h x y (by omega) (by omega)]
    rw [← hidx]
    interval_cases c <;> simp

theorem c6_zero_factor_reproduces_interior_witness :
    0 + 1 < 3 ∧
    ((spiralDistortion [1,2,3,4, 5,6,7,8, 9,10,11,12, 13,14,15,16, 17,18,19,20,
        21,22,23,24, 25,26,27,28, 29,30,31,32, 33,34,35,36] 3 3 0).getD
          (pixBase 3 0 0 + 0) 0 =
        ([1,2,3,4, 5,6,7,8, 9,10,11,12, 13,14,15,16, 17,18,19,20, 21,22,23,24,
          25,26,27,28, 29,30,31,32, 33,34,35,36] : List ℕ).getD
          (pixBase 3 0 0 + 0) 0 ∧
     (wormholeDistortion [1,2,3,4, 5,6,7,8, 9,10,11,12, 13,14,15,16, 17,18,19,20,
        21,22,23,24, 25,26,27,28, 29,30,31,32, 33,34,35,36] 3 3 0).getD
          (pixBase 3 0 0 + 0) 0 =
        ([1,2,3,4, 5,6,7,8, 9,10,11,12, 13,14,15,16, 17,18,19,20, 21,22,23,24,
          25,26,27,28, 29,30,31,32, 33,34,35,36] : List ℕ).getD
          (pixBase 3 0 0 + 0) 0) :=
  ⟨by decide,
    c6_zero_factor_reproduces_interior
      [1,2,3,4, 5,6,7,8, 9,10,11,12, 13,14,15,16, 17,18,19,20, 21,22,23,24,
        25,26,27,28, 29,30,31,32, 33,34,35,36] 3 3 0 0 0
      (by decide) (by decide) (by decide)⟩

/-!  Exact inversion of the HSL conversion (chromatic case):
`q = l < 0.5 ? l(1+s) : l+s-ls` recovers the channel maximum and
`p = 2l - q` the minimum, and each `hueToRgb` evaluation recovers one
channel exactly.  All identities hold in exact rational arithmetic. -/

theorem hsl_q_eval (M m : ℚ) (h0 : 0 ≤ m) (h1 : M ≤ 1) (hlt : m < M) :
    (if (M + m) / 2 < 1/2 then
        (M + m) / 2 *
          (1 + (if 1/2 < (M + m) / 2 then (M - m) / (2 - M - m) else (M - m) / (M + m)))
      else
        (M + m) / 2 +
            (if 1/2 < (M + m) / 2 then (M - m) / (2 - M - m) else (M - m) / (M + m)) -
          (M + m) / 2 *
            (if 1/2 < (M + m) / 2 then (M - m) / (2 - M - m) else (M - m) / (M + m))) =
      M := by
  have hsum : 0 < M + m := by linarith
  rcases lt_trichotomy ((M + m) / 2) (1/2) with hl | hl | hl
  · rw [if_pos hl, if_neg (by linarith)]
    field_simp
    ring
  · rw [if_neg (by linarith), if_neg (by linarith)]
    have hsum1 : M + m = 1 := by linarith
    rw [hsum1]
    have hm : m = 1 - M := by linarith
    rw [hm]
    norm_num
    ring
  · rw [if_neg (by linarith), if_pos hl]
    have h2s : 0 < 2 - M - m := by linarith
    field_simp
    ring

theorem hueVal_no_wrap (p q t : ℚ) (h0 : ¬ t < 0) (h1 : ¬ 1 < t) :
    hueVal p q t =
      if t < 1/6 then p + (q - p) * 6 * t
      else if t < 1/2 then q
      else if t < 2/3 then p + (q - p) * (2/3 - t) * 6
      else p := by
  simp only [hueVal]
  rw [if_neg h0, if_neg h1]

theorem hueVal_wrap_up (p q t : ℚ) (h0 : t < 0) (h1 : ¬ 1 < t + 1) :
    hueVal p q t =
      if t + 1 < 1/6 then p + (q - p) * 6 * (t + 1)
      else if t + 1 < 1/2 then q
      else if t + 1 < 2/3 then p + (q - p) * (2/3 - (t + 1)) * 6
      else p := by
  simp only [hueVal]
  rw [if_pos h0, if_neg h1]

theorem hueVal_wrap_down (p q t : ℚ) (h0 : ¬ t < 0) (h1 : 1 < t) :
    hueVal p q t =
      if t - 1 < 1/6 then p + (q - p) * 6 * (t - 1)
      else if t - 1 < 1/2 then q
      else if t - 1 < 2/3 then p + (q - p) * (2/3 - (t - 1)) * 6
      else p := by
  simp only [hueVal]
  rw [if_neg h0, if_pos h1]

theorem hueVal_sector_A1 (m c M : ℚ) (hlt : m < M) (hmc : m ≤ c) (hcM : c ≤ M) :
    hueVal m M ((c - m) / (M - m) / 6 + 1/3) = M ∧
    hueVal m M ((c - m) / (M - m) / 6) = c ∧
    hueVal m M ((c - m) / (M - m) / 6 - 1/3) = m := by
  have hd : 0 < M - m := by linarith
  have hq0 : 0 ≤ (c - m) / (M - m) := div_nonneg (by linarith) hd.le
  have hq1 : (c - m) / (M - m) ≤ 1 := (div_le_one hd).mpr (by linarith)
  have hqc : (c - m) / (M - m) * (M - m) = c - m := div_mul_cancel₀ _ (ne_of_gt hd)
  set q := (c - m) / (M - m) with hqdef
  refine ⟨?_, ?_, ?_⟩
  · rw [hueVal_no_wrap _ _ _ (by linarith) (by linarith)]
    rw [if_neg (show ¬ q / 6 + 1/3 < 1/6 by linarith)]
    by_cases hq : q < 1
    · rw [if_pos (show q / 6 + 1/3 < 1/2 by linarith)]
    · have hqe : q = 1 := le_antisymm hq1 (not_lt.mp hq)
      rw [if_neg (show ¬ q / 6 + 1/3 < 1/2 by rw [hqe]; norm_num),
        if_pos (show q / 6 + 1/3 < 2/3 by rw [hqe]; norm_num), hqe]
      ring_nf
  · rw [hueVal_no_wrap _ _ _ (by linarith) (by linarith)]
    by_cases hq : q < 1
    · rw [if_pos (show q / 6 < 1/6 by linarith)]
      rw [show m + (M - m) * 6 * (q / 6) = m + q * (M - m) by ring, hqc]
      ring
    · have hqe : q = 1 := le_antisymm hq1 (not_lt.mp hq)
      have hce : c = M := by
        have h2 := hqc
        rw [hqe, one_mul] at h2
        linarith
      rw [if_neg (show ¬ q / 6 < 1/6 by rw [hqe]; norm_num),
        if_pos (show q / 6 < 1/2 by rw [hqe]; norm_num), hce]
  · rw [hueVal_wrap_up _ _ _ (by linarith) (by linarith)]
    rw [if_neg (show ¬ q / 6 - 1/3 + 1 < 1/6 by linarith),
      if_neg (show ¬ q / 6 - 1/3 + 1 < 1/2 by linarith),
      if_neg (show ¬ q / 6 - 1/3 + 1 < 2/3 by linarith)]

theorem hueVal_sector_A2 (m c M : ℚ) (hlt : m < M) (hmc : m < c) (hcM : c ≤ M) :
    hueVal m M (((m - c) / (M - m) + 6) / 6 + 1/3) = M ∧
    hueVal m M (((m - c) / (M - m) + 6) / 6) = m ∧
    hueVal m M (((m - c) / (M - m) + 6) / 6 - 1/3) = c := by
  have hd : 0 < M - m := by linarith
  have hq0 : 0 < (c - m) / (M - m) := div_pos (by linarith) hd
  have hq1 : (c - m) / (M - m) ≤ 1 := (div_le_one hd).mpr (by linarith)
  have hqc : (c - m) / (M - m) * (M - m) = c - m := div_mul_cancel₀ _ (ne_of_gt hd)
  set q := (c - m) / (M - m) with hqdef
  have hneg : (m - c) / (M - m) = -q := by
    rw [hqdef]
    ring
  rw [hneg]
  refine ⟨?_, ?_, ?_⟩
  · rw [hueVal_wrap_down _ _ _ (by linarith) (by linarith)]
    rw [if_neg (show ¬ (-q + 6) / 6 + 1/3 - 1 < 1/6 by linarith),
      if_pos (show (-q + 6) / 6 + 1/3 - 1 < 1/2 by linarith)]
  · rw [hueVal_no_wrap _ _ _ (by linarith) (by linarith)]
    rw [if_neg (show ¬ (-q + 6) / 6 < 1/6 by linarith),
      if_neg (show ¬ (-q + 6) / 6 < 1/2 by linarith),
      if_neg (show ¬ (-q + 6) / 6 < 2/3 by linarith)]
  · rw [hueVal_no_wrap _ _ _ (by linarith) (by linarith)]
    rw [if_neg (show ¬ (-q + 6) / 6 - 1/3 < 1/6 by linarith),
      if_neg (show ¬ (-q + 6) / 6 - 1/3 < 1/2 by linarith),
      if_pos (show (-q + 6) / 6 - 1/3 < 2/3 by linarith)]
    rw [show m + (M - m) * (2/3 - ((-q + 6) / 6 - 1/3)) * 6 = m + q * (M - m) by ring,
      hqc]
    ring

theorem hueVal_sector_B1 (m c M : ℚ) (hlt : m < M) (hmc : m ≤ c) (hcM : c < M) :
    hueVal m M (((m - c) / (M - m) + 2) / 6 + 1/3) = c ∧
    hueVal m M (((m - c) / (M - m) + 2) / 6) = M ∧
    hueVal m M (((m - c) / (M - m) + 2) / 6 - 1/3) = m := by
  have hd : 0 < M - m := by linarith
  have hq0 : 0 ≤ (c - m) / (M - m) := div_nonneg (by linarith) hd.le
  have hq1 : (c - m) / (M - m) < 1 := (div_lt_one hd).mpr (by linarith)
  have hqc : (c - m) / (M - m) * (M - m) = c - m := div_mul_cancel₀ _ (ne_of_gt hd)
  set q := (c - m) / (M - m) with hqdef
  have hneg : (m - c) / (M - m) = -q := by
    rw [hqdef]
    ring
  rw [hneg]
  refine ⟨?_, ?_, ?_⟩
  · rw [hueVal_no_wrap _ _ _ (by linarith) (by linarith)]
    rw [if_neg (show ¬ (-q + 2) / 6 + 1/3 < 1/6 by linarith),
      if_neg (show ¬ (-q + 2) / 6 + 1/3 < 1/2 by linarith)]
    by_cases hqz : 0 < q
    · rw [if_pos (show (-q + 2) / 6 + 1/3 < 2/3 by linarith)]
      rw [show m + (M - m) * (2/3 - ((-q + 2) / 6 + 1/3)) * 6 = m + q * (M - m) by ring,
        hqc]
      ring
    · have hqe : q = 0 := le_antisymm (not_lt.mp hqz) hq0
      have hcm : c = m := by
        have h2 := hqc
        rw [hqe, zero_mul] at h2
        linarith
      rw [if_neg (show ¬ (-q + 2) / 6 + 1/3 < 2/3 by rw [hqe]; norm_num), hcm]
  · rw [hueVal_no_wrap _ _ _ (by linarith) (by linarith)]
    rw [if_neg (show ¬ (-q + 2) / 6 < 1/6 by linarith),
      if_pos (show (-q + 2) / 6 < 1/2 by linarith)]
  · by_cases hqz : 0 < q
    · rw [hueVal_wrap_up _ _ _ (by linarith) (by linarith)]
      rw [if_neg (show ¬ (-q + 2) / 6 - 1/3 + 1 < 1/6 by linarith),
        if_neg (show ¬ (-q + 2) / 6 - 1/3 + 1 < 1/2 by linarith),
        if_neg (show ¬ (-q + 2) / 6 - 1/3 + 1 < 2/3 by linarith)]
    · have hqe : q = 0 := le_antisymm (not_lt.mp hqz) hq0
      rw [hueVal_no_wrap _ _ _ (by rw [hqe]; norm_num) (by rw [hqe]; norm_num)]
      rw [if_pos (show (-q + 2) / 6 - 1/3 < 1/6 by rw [hqe]; norm_num)]
      rw [hqe]
      ring_nf

theorem hueVal_sector_B2 (m c M : ℚ) (hlt : m < M) (hmc : m < c) (hcM : c ≤ M) :
    hueVal m M (((c - m) / (M - m) + 2) / 6 + 1/3) = m ∧
    hueVal m M (((c - m) / (M - m) + 2) / 6) = M ∧
    hueVal m M (((c - m) / (M - m) + 2) / 6 - 1/3) = c := by
  have hd : 0 < M - m := by linarith
  have hq0 : 0 < (c - m) / (M - m) := div_pos (by linarith) hd
  have hq1 : (c - m) / (M - m) ≤ 1 := (div_le_one hd).mpr (by linarith)
  have hqc : (c - m) / (M - m) * (M - m) = c - m := div_mul_cancel₀ _ (ne_of_gt hd)
  set q := (c - m) / (M - m) with hqdef
  refine ⟨?_, ?_, ?_⟩
  · rw [hueVal_no_wrap _ _ _ (by linarith) (by linarith)]
    rw [if_neg (show ¬ (q + 2) / 6 + 1/3 < 1/6 by linarith),
      if_neg (show ¬ (q + 2) / 6 + 1/3 < 1/2 by linarith),
      if_neg (show ¬ (q + 2) / 6 + 1/3 < 2/3 by linarith)]
  · rw [hueVal_no_wrap _ _ _ (by linarith) (by linarith)]
    rw [if_neg (show ¬ (q + 2) / 6 < 1/6 by linarith)]
    by_cases hq : q < 1
    · rw [if_pos (show (q + 2) / 6 < 1/2 by linarith)]
    · have hqe : q = 1 := le_antisymm hq1 (not_lt.mp hq)
      rw [if_neg (show ¬ (q + 2) / 6 < 1/2 by rw [hqe]; norm_num),
        if_pos (show (q + 2) / 6 < 2/3 by rw [hqe]; norm_num), hqe]
      ring_nf
  · rw [hueVal_no_wrap _ _ _ (by linarith) (by linarith)]
    by_cases hq : q < 1
    · rw [if_pos (show (q + 2) / 6 - 1/3 < 1/6 by linarith)]
      rw [show m + (M - m) * 6 * ((q + 2) / 6 - 1/3) = m + q * (M - m) by ring, hqc]
      ring
    · have hqe : q = 1 := le_antisymm hq1 (not_lt.mp hq)
      have hce : c = M := by
        have h2 := hqc
        rw [hqe, one_mul] at h2
        linarith
      rw [if_neg (show ¬ (q + 2) / 6 - 1/3 < 1/6 by rw [hqe]; norm_num),
        if_pos (show (q + 2) / 6 - 1/3 < 1/2 by rw [hqe]; norm_num), hce]

theorem hueVal_sector_C1 (m c M : ℚ) (hlt : m < M) (hmc : m < c) (hcM : c < M) :
    hueVal m M (((m - c) / (M - m) + 4) / 6 + 1/3) = m ∧
    hueVal m M (((m - c) / (M - m) + 4) / 6) = c ∧
    hueVal m M (((m - c) / (M - m) + 4) / 6 - 1/3) = M := by
  have hd : 0 < M - m := by linarith
  have hq0 : 0 < (c - m) / (M - m) := div_pos (by linarith) hd
  have hq1 : (c - m) / (M - m) < 1 := (div_lt_one hd).mpr (by linarith)
  have hqc : (c - m) / (M - m) * (M - m) = c - m := div_mul_cancel₀ _ (ne_of_gt hd)
  set q := (c - m) / (M - m) with hqdef
  have hneg : (m - c) / (M - m) = -q := by
    rw [hqdef]
    ring
  rw [hneg]
  refine ⟨?_, ?_, ?_⟩
  · rw [hueVal_no_wrap _ _ _ (by linarith) (by linarith)]
    rw [if_neg (show ¬ (-q + 4) / 6 + 1/3 < 1/6 by linarith),
      if_neg (show ¬ (-q + 4) / 6 + 1/3 < 1/2 by linarith),
      if_neg (show ¬ (-q + 4) / 6 + 1/3 < 2/3 by linarith)]
  · rw [hueVal_no_wrap _ _ _ (by linarith) (by linarith)]
    rw [if_neg (show ¬ (-q + 4) / 6 < 1/6 by linarith),
      if_neg (show ¬ (-q + 4) / 6 < 1/2 by linarith),
      if_pos (show (-q + 4) / 6 < 2/3 by linarith)]
    rw [show m + (M - m) * (2/3 - (-q + 4) / 6) * 6 = m + q * (M - m) by ring, hqc]
    ring
  · rw [hueVal_no_wrap _ _ _ (by linarith) (by linarith)]
    rw [if_neg (show ¬ (-q + 4) / 6 - 1/3 < 1/6 by linarith),
      if_pos (show (-q + 4) / 6 - 1/3 < 1/2 by linarith)]

theorem hueVal_sector_C2 (m c M : ℚ) (hlt : m < M) (hmc : m ≤ c) (hcM : c < M) :
    hueVal m M (((c - m) / (M - m) + 4) / 6 + 1/3) = c ∧
    hueVal m M (((c - m) / (M - m) + 4) / 6) = m ∧
    hueVal m M (((c - m) / (M - m) + 4) / 6 - 1/3) = M := by
  have hd : 0 < M - m := by linarith
  have hq0 : 0 ≤ (c - m) / (M - m) := div_nonneg (by linarith) hd.le
  have hq1 : (c - m) / (M - m) < 1 := (div_lt_one hd).mpr (by linarith)
  have hqc : (c - m) / (M - m) * (M - m) = c - m := div_mul_cancel₀ _ (ne_of_gt hd)
  set q := (c - m) / (M - m) with hqdef
  refine ⟨?_, ?_, ?_⟩
  · by_cases hqz : 0 < q
    · rw [hueVal_wrap_down _ _ _ (by linarith) (by linarith)]
      rw [if_pos (show (q + 4) / 6 + 1/3 - 1 < 1/6 by linarith)]
      rw [show m + (M - m) * 6 * ((q + 4) / 6 + 1/3 - 1) = m + q * (M - m) by ring, hqc]
      ring
    · have hqe : q = 0 := le_antisymm (not_lt.mp hqz) hq0
      have hcm : c = m := by
        have h2 := hqc
        rw [hqe, zero_mul] at h2
        linarith
      rw [hueVal_no_wrap _ _ _ (by linarith) (by rw [hqe]; norm_num)]
      rw [if_neg (show ¬ (q + 4) / 6 + 1/3 < 1/6 by linarith),
        if_neg (show ¬ (q + 4) / 6 + 1/3 < 1/2 by linarith),
        if_neg (show ¬ (q + 4) / 6 + 1/3 < 2/3 by rw [hqe]; norm_num), hcm]
  · rw [hueVal_no_wrap _ _ _ (by linarith) (by linarith)]
    rw [if_neg (show ¬ (q + 4) / 6 < 1/6 by linarith),
      if_neg (show ¬ (q + 4) / 6 < 1/2 by linarith),
      if_neg (show ¬ (q + 4) / 6 < 2/3 by linarith)]
  · rw [hueVal_no_wrap _ _ _ (by linarith) (by linarith)]
    rw [if_neg (show ¬ (q + 4) / 6 - 1/3 < 1/6 by linarith),
      if_pos (show (q + 4) / 6 - 1/3 < 1/2 by linarith)]

/-- `hslToRgb` on a chromatic HSL value whose saturation and lightness come
from `rgbToHsl` with channel maximum `M` and minimum `m`: the `(p, q)`
parameters recover `(m, M)` exactly. -/
theorem hslToRgb_chromatic (hdeg M m : ℚ) (h0 : 0 ≤ m) (h1 : M ≤ 1)
    (hlt : m < M) :
    hslToRgb ⟨hdeg,
        (if 1/2 < (M + m) / 2 then (M - m) / (2 - M - m) else (M - m) / (M + m)),
        (M + m) / 2⟩ =
      (hueToRgb m M (hdeg / 360 + 1/3), hueToRgb m M (hdeg / 360),
        hueToRgb m M (hdeg / 360 - 1/3)) := by
  have hspos :
      0 < (if 1/2 < (M + m) / 2 then (M - m) / (2 - M - m) else (M - m) / (M + m)) := by
    split_ifs with hcond
    · exact div_pos (by linarith) (by linarith)
    · exact div_pos (by linarith) (by linarith)
  unfold hslToRgb
  dsimp only
  rw [if_neg (ne_of_gt hspos), hsl_q_eval M m h0 h1 hlt,
    show 2 * ((M + m) / 2) - M = m by ring]

theorem hue_deg_roundtrip (z : ℚ) : z / 6 * 360 / 360 = z / 6 := by
  ring

/-- Exact roundtrip of the colour conversion on normalised channels: for
`rd, gd, bd ∈ [0, 1]`, `hslToRgb (hslAux rd gd bd)` is the exact truncation
of each original channel scaled back to `[0, 255]`. -/
theorem hslAux_roundtrip (rd gd bd : ℚ)
    (h0r : 0 ≤ rd) (h1r : rd ≤ 1) (h0g : 0 ≤ gd) (h1g : gd ≤ 1)
    (h0b : 0 ≤ bd) (h1b : bd ≤ 1) :
    hslToRgb (hslAux rd gd bd) =
      (trunc8 (rd * 255), trunc8 (gd * 255), trunc8 (bd * 255)) := by
  simp only [hslAux]
  by_cases heq : max rd (max gd bd) = min rd (min gd bd)
  · rw [if_pos heq]
    have hrd : max rd (max gd bd) = rd :=
      le_antisymm (by rw [heq]; exact min_le_left _ _) (le_max_left _ _)
    have hgd2 : gd = rd := by
      have hle : gd ≤ rd := by
        rw [← hrd]
        exact le_trans (le_max_left _ _) (le_max_right _ _)
      have hge : rd ≤ gd := by
        calc rd = max rd (max gd bd) := hrd.symm
        _ = min rd (min gd bd) := heq
        _ ≤ min gd bd := min_le_right _ _
        _ ≤ gd := min_le_left _ _
      exact le_antisymm hle hge
    have hbd2 : bd = rd := by
      have hle : bd ≤ rd := by
        rw [← hrd]
        exact le_trans (le_max_right _ _) (le_max_right _ _)
      have hge : rd ≤ bd := by
        calc rd = max rd (max gd bd) := hrd.symm
        _ = min rd (min gd bd) := heq
        _ ≤ min gd bd := min_le_right _ _
        _ ≤ bd := min_le_right _ _
      exact le_antisymm hle hge
    unfold hslToRgb
    dsimp only
    rw [if_pos rfl]
    have hl : (max rd (max gd bd) + min rd (min gd bd)) / 2 = rd := by
      rw [← heq, hrd]
      ring
    rw [hl, hgd2, hbd2]
  · rw [if_neg heq]
    have hminlt : min rd (min gd bd) < max rd (max gd bd) := by
      apply lt_of_le_of_ne
      · exact le_trans (min_le_left _ _) (le_max_left _ _)
      · intro h
        exact heq h.symm
    have h0m : 0 ≤ min rd (min gd bd) := le_min h0r (le_min h0g h0b)
    have h1M : max rd (max gd bd) ≤ 1 := max_le h1r (max_le h1g h1b)
    rw [hslToRgb_chromatic _ _ _ h0m h1M hminlt]
    by_cases hmr : max rd (max gd bd) = rd
    · rw [if_pos hmr]
      have hgr : gd ≤ rd := by
        rw [← hmr]
        exact le_trans (le_max_left _ _) (le_max_right _ _)
      have hbr : bd ≤ rd := by
        rw [← hmr]
        exact le_trans (le_max_right _ _) (le_max_right _ _)
      by_cases hgb : gd < bd
      · rw [if_pos hgb]
        have hminv : min rd (min gd bd) = gd := by
          rw [min_eq_left hgb.le]
          exact min_eq_right hgr
        rw [hmr, hminv, hue_deg_roundtrip]
        have hmlt : gd < rd := by
          rw [hmr, hminv] at hminlt
          exact hminlt
        obtain ⟨e1, e2, e3⟩ := hueVal_sector_A2 gd bd rd hmlt hgb hbr
        unfold hueToRgb
        rw [e1, e2, e3]
      · rw [if_neg hgb, add_zero]
        have hbg : bd ≤ gd := not_lt.mp hgb
        have hminv : min rd (min gd bd) = bd := by
          rw [min_eq_right hbg]
          exact min_eq_right hbr
        rw [hmr, hminv, hue_deg_roundtrip]
        have hmlt : bd < rd := by
          rw [hmr, hminv] at hminlt
          exact hminlt
        obtain ⟨e1, e2, e3⟩ := hueVal_sector_A1 bd gd rd hmlt hbg hgr
        unfold hueToRgb
        rw [e1, e2, e3]
    · by_cases hmg : max rd (max gd bd) = gd
      · rw [if_neg hmr, if_pos hmg]
        have hrg : rd < gd := by
          have hle : rd ≤ gd := by
            rw [← hmg]
            exact le_max_left _ _
          exact lt_of_le_of_ne hle (fun h => hmr (hmg.trans h.symm))
        have hbg : bd ≤ gd := by
          rw [← hmg]
          exact le_trans (le_max_right _ _) (le_max_right _ _)
        by_cases hbr2 : bd ≤ rd
        · have hminv : min rd (min gd bd) = bd := by
            rw [min_eq_right hbg]
            exact min_eq_right hbr2
          rw [hmg, hminv, hue_deg_roundtrip]
          have hmlt : bd < gd := by
            rw [hmg, hminv] at hminlt
            exact hminlt
          obtain ⟨e1, e2, e3⟩ := hueVal_sector_B1 bd rd gd hmlt hbr2 hrg
          unfold hueToRgb
          rw [e1, e2, e3]
        · have hrb : rd < bd := not_le.mp hbr2
          have hminv : min rd (min gd bd) = rd := by
            rw [min_eq_right hbg]
            exact min_eq_left hrb.le
          rw [hmg, hminv, hue_deg_roundtrip]
          have hmlt : rd < gd := by
            rw [hmg, hminv] at hminlt
            exact hminlt
          obtain ⟨e1, e2, e3⟩ := hueVal_sector_B2 rd bd gd hmlt hrb hbg
          unfold hueToRgb
          rw [e1, e2, e3]
      · rw [if_neg hmr, if_neg hmg]
        have hmb : max rd (max gd bd) = bd := by
          rcases max_choice rd (max gd bd) with h | h
          · exact absurd h hmr
          · rcases max_choice gd bd with h2 | h2
            · exact absurd (h.trans h2) hmg
            · exact h.trans h2
        have hrb : rd < bd := by
          have hle : rd ≤ bd := by
            rw [← hmb]
            exact le_max_left _ _
          exact lt_of_le_of_ne hle (fun h => hmr (hmb.trans h.symm))
        have hgb2 : gd < bd := by
          have hle : gd ≤ bd := by
            rw [← hmb]
            exact le_trans (le_max_left _ _) (le_max_right _ _)
          exact lt_of_le_of_ne hle (fun h => hmg (hmb.trans h.symm))
        by_cases hrg : rd < gd
        · have hminv : min rd (min gd bd) = rd := by
            rw [min_eq_left hgb2.le]
            exact min_eq_left hrg.le
          rw [hmb, hminv, hue_deg_roundtrip]
          have hmlt : rd < bd := by
            rw [hmb, hminv] at hminlt
            exact hminlt
          obtain ⟨e1, e2, e3⟩ := hueVal_sector_C1 rd gd bd hmlt hrg hgb2
          unfold hueToRgb
          rw [e1, e2, e3]
        · have hgr2 : gd ≤ rd := not_lt.mp hrg
          have hminv : min rd (min gd bd) = gd := by
            rw [min_eq_left hgb2.le]
            exact min_eq_right hgr2
          rw [hmb, hminv, hue_deg_roundtrip]
          have hmlt : gd < bd := by
            rw [hmb, hminv] at hminlt
            exact hminlt
          obtain ⟨e1, e2, e3⟩ := hueVal_sector_C2 gd rd bd hmlt hgr2 hrb
          unfold hueToRgb
          rw [e1, e2, e3]

/-- C3: for every RGB triple with channels in `[0, 255]`, the composition
`hslToRgb (rgbToHsl r g b)` reproduces each channel within ±1.  (In exact
arithmetic the roundtrip is in fact exact, so the ±1 tolerance holds.) -/
theorem c3_hsl_roundtrip_within_one (r g b : ℕ)
    (hr : r ≤ 255) (hg : g ≤ 255) (hb : b ≤ 255) :
    (((hslToRgb (rgbToHsl r g b)).1 : ℤ) - r).natAbs ≤ 1 ∧
    (((hslToRgb (rgbToHsl r g b)).2.1 : ℤ) - g).natAbs ≤ 1 ∧
    (((hslToRgb (rgbToHsl r g b)).2.2 : ℤ) - b).natAbs ≤ 1 := by
  have hexact : hslToRgb (rgbToHsl r g b) = (r, g, b) := by
    unfold rgbToHsl
    rw [hslAux_roundtrip ((r : ℚ)/255) ((g : ℚ)/255) ((b : ℚ)/255)
      (by positivity) ((div_le_one (by norm_num)).mpr (by exact_mod_cast hr))
      (by positivity) ((div_le_one (by norm_num)).mpr (by exact_mod_cast hg))
      (by positivity) ((div_le_one (by norm_num)).mpr (by exact_mod_cast hb))]
    rw [div_mul_cancel₀ ((r : ℚ)) (by norm_num : (255:ℚ) ≠ 0),
      div_mul_cancel₀ ((g : ℚ)) (by norm_num : (255:ℚ) ≠ 0),
      div_mul_cancel₀ ((b : ℚ)) (by norm_num : (255:ℚ) ≠ 0),
      trunc8_natCast, trunc8_natCast, trunc8_natCast]
  rw [hexact]
  simp

theorem c3_hsl_roundtrip_within_one_witness :
    (((hslToRgb (rgbToHsl 10 200 30)).1 : ℤ) - 10).natAbs ≤ 1 ∧
    (((hslToRgb (rgbToHsl 10 200 30)).2.1 : ℤ) - 200).natAbs ≤ 1 ∧
    (((hslToRgb (rgbToHsl 10 200 30)).2.2 : ℤ) - 30).natAbs ≤ 1 :=
  c3_hsl_roundtrip_within_one 10 200 30 (by decide) (by decide) (by decide)

/-!  Bounds for `hslToRgb` outputs (C8). -/

theorem trunc8_le_of {K : Type} [LinearOrderedField K] [FloorRing K]
    (x : K) (h : x ≤ 255) : trunc8 x ≤ 255 := by
  unfold trunc8
  have h2 : (⌊x⌋ : ℤ) ≤ 255 := by
    have hfl : ((⌊x⌋ : ℤ) : K) ≤ x := Int.floor_le x
    have : ((⌊x⌋ : ℤ) : K) ≤ 255 := le_trans hfl h
    exact_mod_cast this
  omega

theorem convex_le_one (p q a : ℚ) (h1p : p ≤ 1) (h1q : q ≤ 1)
    (ha0 : 0 ≤ a) (ha1 : a ≤ 1) : p + (q - p) * a ≤ 1 := by
  nlinarith [mul_nonneg (sub_nonneg.mpr h1q) ha0,
    mul_nonneg (sub_nonneg.mpr h1p) (sub_nonneg.mpr ha1)]

theorem hueVal_le_one (p q t0 : ℚ) (h0p : 0 ≤ p) (h1p : p ≤ 1)
    (h0q : 0 ≤ q) (h1q : q ≤ 1) (hta : -1 ≤ t0) (htb : t0 ≤ 4/3) :
    hueVal p q t0 ≤ 1 := by
  by_cases hw : t0 < 0
  · rw [hueVal_wrap_up p q t0 hw (by linarith)]
    split_ifs with hb1 hb2 hb3
    · have hcx := convex_le_one p q (6 * (t0 + 1)) h1p h1q (by linarith) (by linarith)
      linarith
    · exact h1q
    · have hcx := convex_le_one p q ((2/3 - (t0 + 1)) * 6) h1p h1q (by linarith)
        (by linarith)
      linarith
    · exact h1p
  · by_cases hw2 : 1 < t0
    · rw [hueVal_wrap_down p q t0 hw hw2]
      split_ifs with hb1 hb2 hb3
      · have hcx := convex_le_one p q (6 * (t0 - 1)) h1p h1q (by linarith) (by linarith)
        linarith
      · exact h1q
      · have hcx := convex_le_one p q ((2/3 - (t0 - 1)) * 6) h1p h1q (by linarith)
          (by linarith)
        linarith
      · exact h1p
    · rw [hueVal_no_wrap p q t0 hw hw2]
      split_ifs with hb1 hb2 hb3
      · have hcx := convex_le_one p q (6 * t0) h1p h1q (by linarith) (by linarith)
        linarith
      · exact h1q
      · have hcx := convex_le_one p q ((2/3 - t0) * 6) h1p h1q (by linarith)
          (by linarith)
        linarith
      · exact h1p

/-- C8 fails as stated: in the achromatic case the code truncates `l * 255`
rather than rounding it.  At `l = 1/2` the code returns channel value 127
while `round(0.5 * 255) = round(127.5) = 128`. -/
theorem c8_achromatic_counterexample :
    (hslToRgb ⟨0, 0, 1/2⟩).1 = 127 ∧ round ((1/2 : ℚ) * 255) = 128 ∧
    (127 : ℕ) ≠ 128 := by
  refine ⟨?_, ?_, by decide⟩
  · unfold hslToRgb
    dsimp only
    rw [if_pos rfl]
    show trunc8 ((1/2 : ℚ) * 255) = 127
    apply trunc8_eq <;> norm_num
  · rw [round_eq]
    rw [show (1/2 : ℚ) * 255 + 1/2 = ((128 : ℤ) : ℚ) by norm_num]
    rw [Int.floor_intCast]

/-- C8 (amended): in the achromatic case (`s = 0`) `hslToRgb` returns
`r = g = b = ⌊l * 255⌋` (truncation, not rounding — see the counterexample);
and for every valid HSL input (`h ∈ [0, 360)`, `s, l ∈ [0, 1]`) each output
channel is at most 255: in exact arithmetic every hue-interpolated value lies
in `[0, 1]`, so no intermediate ever reaches 256 and no clamp is needed. -/
theorem c8_achromatic_floor_and_bounded (hdeg s l : ℚ)
    (h0s : 0 ≤ s) (h1s : s ≤ 1) (h0l : 0 ≤ l) (h1l : l ≤ 1)
    (h0h : 0 ≤ hdeg) (h1h : hdeg < 360) :
    hslToRgb ⟨hdeg, 0, l⟩ =
      ((⌊l * 255⌋).toNat, (⌊l * 255⌋).toNat, (⌊l * 255⌋).toNat) ∧
    ((hslToRgb ⟨hdeg, s, l⟩).1 ≤ 255 ∧ (hslToRgb ⟨hdeg, s, l⟩).2.1 ≤ 255 ∧
      (hslToRgb ⟨hdeg, s, l⟩).2.2 ≤ 255) := by
  have hh0 : 0 ≤ hdeg / 360 := div_nonneg h0h (by norm_num)
  have hh1 : hdeg / 360 < 1 := (div_lt_one (by norm_num)).mpr h1h
  constructor
  · unfold hslToRgb
    dsimp only
    rw [if_pos rfl]
    rfl
  · unfold hslToRgb
    dsimp only
    by_cases hs : s = 0
    · rw [if_pos hs]
      have hb : trunc8 (l * 255) ≤ 255 := trunc8_le_of _ (by linarith)
      exact ⟨hb, hb, hb⟩
    · rw [if_neg hs]
      set qv := if l < 1/2 then l * (1 + s) else l + s - l * s with hqv
      have hq0 : 0 ≤ qv := by
        rw [hqv]
        split_ifs with hc
        · nlinarith [mul_nonneg h0l (by linarith : (0:ℚ) ≤ 1 + s)]
        · nlinarith [mul_nonneg h0s (by linarith : (0:ℚ) ≤ 1 - l)]
      have hq1 : qv ≤ 1 := by
        rw [hqv]
        split_ifs with hc
        · nlinarith [mul_nonneg (by linarith : (0:ℚ) ≤ 1/2 - l)
            (by linarith : (0:ℚ) ≤ 1 + s)]
        · nlinarith [mul_nonneg (sub_nonneg.mpr h1l) (sub_nonneg.mpr h1s)]
      have hp0 : 0 ≤ 2 * l - qv := by
        rw [hqv]
        split_ifs with hc
        · nlinarith [mul_nonneg h0l (sub_nonneg.mpr h1s)]
        · nlinarith [mul_nonneg (sub_nonneg.mpr h1s) (sub_nonneg.mpr h1l)]
      have hp1 : 2 * l - qv ≤ 1 := by
        rw [hqv]
        split_ifs with hc
        · nlinarith [mul_nonneg h0l h0s]
        · nlinarith [mul_nonneg h0s (sub_nonneg.mpr h1l)]
      refine ⟨?_, ?_, ?_⟩
      · unfold hueToRgb
        apply trunc8_le_of
        have hv := hueVal_le_one (2 * l - qv) qv (hdeg / 360 + 1/3) hp0 hp1 hq0 hq1
          (by linarith) (by linarith)
        linarith
      · unfold hueToRgb
        apply trunc8_le_of
        have hv := hueVal_le_one (2 * l - qv) qv (hdeg / 360) hp0 hp1 hq0 hq1
          (by linarith) (by linarith)
        linarith
      · unfold hueToRgb
        apply trunc8_le_of
        have hv := hueVal_le_one (2 * l - qv) qv (hdeg / 360 - 1/3) hp0 hp1 hq0 hq1
          (by linarith) (by linarith)
        linarith

theorem c8_achromatic_floor_and_bounded_witness :
    hslToRgb ⟨90, 0, 1/2⟩ =
      ((⌊(1/2 : ℚ) * 255⌋).toNat, (⌊(1/2 : ℚ) * 255⌋).toNat,
        (⌊(1/2 : ℚ) * 255⌋).toNat) ∧
    ((hslToRgb ⟨90, 1/2, 1/2⟩).1 ≤ 255 ∧ (hslToRgb ⟨90, 1/2, 1/2⟩).2.1 ≤ 255 ∧
      (hslToRgb ⟨90, 1/2, 1/2⟩).2.2 ≤ 255) :=
  ⟨(c8_achromatic_floor_and_bounded 90 (1/2) (1/2) (by norm_num) (by norm_num)
      (by norm_num) (by norm_num) (by norm_num) (by norm_num)).1,
   (c8_achromatic_floor_and_bounded 90 (1/2) (1/2) (by norm_num) (by norm_num)
      (by norm_num) (by norm_num) (by norm_num) (by norm_num)).2⟩

/-!  Evaluation of the binary64 rounding model at the inputs that decide the
grayscale-idempotence and hue-loop-termination claims. -/

theorem int_log2_eq (x : ℚ) (k : ℤ) (hx : 0 < x)
    (h1 : (2 : ℚ) ^ k ≤ x) (h2 : x < (2 : ℚ) ^ (k + 1)) : Int.log 2 x = k := by
  have hb : 1 < (2 : ℕ) := by norm_num
  have ha : k ≤ Int.log 2 x := (Int.zpow_le_iff_le_log hb hx).mp (by exact_mod_cast h1)
  have hc : Int.log 2 x < k + 1 := (Int.lt_zpow_iff_log_lt hb hx).mp (by exact_mod_cast h2)
  omega

theorem roundEven_down (x : ℚ) (f : ℤ) (h1 : (f : ℚ) ≤ x)
    (h2 : x < (f : ℚ) + 1/2) : roundEven x = f := by
  unfold roundEven
  have hfl : Int.floor x = f := Int.floor_eq_iff.mpr ⟨h1, by push_cast; linarith⟩
  rw [hfl, if_pos (by push_cast; linarith)]

theorem roundEven_up (x : ℚ) (f : ℤ) (h1 : (f : ℚ) + 1/2 < x)
    (h2 : x < (f : ℚ) + 1) : roundEven x = f + 1 := by
  unfold roundEven
  have hfl : Int.floor x = f := Int.floor_eq_iff.mpr ⟨by linarith, by push_cast; linarith⟩
  rw [hfl, if_neg (by push_cast; linarith), if_pos (by push_cast; linarith)]

theorem roundEven_tie_even (x : ℚ) (f : ℤ) (hx : x = (f : ℚ) + 1/2)
    (he : f % 2 = 0) : roundEven x = f := by
  unfold roundEven
  have hfl : Int.floor x = f := Int.floor_eq_iff.mpr
    ⟨by rw [hx]; linarith, by rw [hx]; push_cast; linarith⟩
  rw [hfl, if_neg (by rw [hx]; push_cast; linarith),
    if_neg (by rw [hx]; push_cast; linarith), if_pos he]

theorem fpRound_zero : fpRound 0 = 0 := by
  unfold fpRound
  rw [if_pos rfl]

theorem fpRound_eval (x : ℚ) (k m : ℤ) (hx : 0 < x)
    (h1 : (2 : ℚ) ^ k ≤ x) (h2 : x < (2 : ℚ) ^ (k + 1))
    (hm : roundEven (x / 2 ^ (k - 52)) = m) :
    fpRound x = (m : ℚ) * 2 ^ (k - 52) := by
  unfold fpRound
  rw [if_neg (ne_of_gt hx), if_pos hx, int_log2_eq x k hx h1 h2, hm]

theorem fpRound_eval_neg (x : ℚ) (k m : ℤ) (hx : 0 < x)
    (h1 : (2 : ℚ) ^ k ≤ x) (h2 : x < (2 : ℚ) ^ (k + 1))
    (hm : roundEven (x / 2 ^ (k - 52)) = m) :
    fpRound (-x) = -((m : ℚ) * 2 ^ (k - 52)) := by
  unfold fpRound
  rw [if_neg (by simpa using ne_of_gt hx), if_neg (by simp; linarith), neg_neg,
    int_log2_eq x k hx h1 h2, hm]

theorem dbl299_eq :
    fpRound (299/1000 : ℚ) = 5386305154335113 / 18014398509481984 := by
  have h := fpRound_eval (299/1000) (-2) 5386305154335113 (by norm_num)
    (by norm_num) (by norm_num)
    (by apply roundEven_down <;> norm_num)
  rw [h]
  norm_num

theorem dbl587_eq :
    fpRound (587/1000 : ℚ) = 2643612981266481 / 4503599627370496 := by
  have h := fpRound_eval (587/1000) (-1) 5287225962532962 (by norm_num)
    (by norm_num) (by norm_num)
    (by apply roundEven_down <;> norm_num)
  rw [h]
  norm_num

theorem dbl114_eq :
    fpRound (114/1000 : ℚ) = 8214565720323785 / 72057594037927936 := by
  have h := fpRound_eval (114/1000) (-4) (8214565720323784 + 1) (by norm_num)
    (by norm_num) (by norm_num)
    (by apply roundEven_up <;> norm_num)
  rw [h]
  norm_num

theorem t3_eq :
    fpRound ((8214565720323785 / 72057594037927936 : ℚ) * 9) =
      4620693217682129 / 4503599627370496 := by
  have h := fpRound_eval ((8214565720323785 / 72057594037927936 : ℚ) * 9) 0
    4620693217682129 (by norm_num) (by norm_num) (by norm_num)
    (by apply roundEven_down <;> norm_num)
  rw [h]
  norm_num

theorem fpRound_t3_idem :
    fpRound (4620693217682129 / 4503599627370496 : ℚ) =
      4620693217682129 / 4503599627370496 := by
  have h := fpRound_eval (4620693217682129 / 4503599627370496 : ℚ) 0
    4620693217682129 (by norm_num) (by norm_num) (by norm_num)
    (by apply roundEven_down <;> norm_num)
  rw [h]
  norm_num

theorem fpRound_a_idem :
    fpRound (5386305154335113 / 18014398509481984 : ℚ) =
      5386305154335113 / 18014398509481984 := by
  have h := fpRound_eval (5386305154335113 / 18014398509481984 : ℚ) (-2)
    5386305154335113 (by norm_num) (by norm_num) (by norm_num)
    (by apply roundEven_down <;> norm_num)
  rw [h]
  norm_num

theorem fpRound_b_idem :
    fpRound (2643612981266481 / 4503599627370496 : ℚ) =
      2643612981266481 / 4503599627370496 := by
  have h := fpRound_eval (2643612981266481 / 4503599627370496 : ℚ) (-1)
    5287225962532962 (by norm_num) (by norm_num) (by norm_num)
    (by apply roundEven_down <;> norm_num)
  rw [h]
  norm_num

theorem fpRound_c_idem :
    fpRound (8214565720323785 / 72057594037927936 : ℚ) =
      8214565720323785 / 72057594037927936 := by
  have h := fpRound_eval (8214565720323785 / 72057594037927936 : ℚ) (-4)
    8214565720323785 (by norm_num) (by norm_num) (by norm_num)
    (by apply roundEven_down <;> norm_num)
  rw [h]
  norm_num

theorem s1_eq :
    fpRound (5386305154335113 / 18014398509481984 +
        2643612981266481 / 4503599627370496 : ℚ) =
      3990189269850259 / 4503599627370496 := by
  have h := fpRound_eval (5386305154335113 / 18014398509481984 +
      2643612981266481 / 4503599627370496 : ℚ) (-1) 7980378539700518
    (by norm_num) (by norm_num) (by norm_num)
    (by
      apply roundEven_tie_even
      · norm_num
      · norm_num)
  rw [h]
  norm_num

theorem s2_eq :
    fpRound (3990189269850259 / 4503599627370496 +
        8214565720323785 / 72057594037927936 : ℚ) =
      9007199254740991 / 9007199254740992 := by
  have h := fpRound_eval (3990189269850259 / 4503599627370496 +
      8214565720323785 / 72057594037927936 : ℚ) (-1) 9007199254740991
    (by norm_num) (by norm_num) (by norm_num)
    (by apply roundEven_down <;> norm_num)
  rw [h]
  norm_num

theorem lumaByteD_009 : lumaByteD 0 0 9 = 1 := by
  unfold lumaByteD
  push_cast
  rw [mul_zero, mul_zero, fpRound_zero, add_zero, fpRound_zero, zero_add,
    dbl114_eq, t3_eq, fpRound_t3_idem]
  have hfl : Int.floor (4620693217682129 / 4503599627370496 : ℚ) = 1 :=
    Int.floor_eq_iff.mpr ⟨by norm_num, by norm_num⟩
  rw [hfl]
  rfl

theorem lumaByteD_111 : lumaByteD 1 1 1 = 0 := by
  unfold lumaByteD
  push_cast
  rw [mul_one, mul_one, mul_one, dbl299_eq, dbl587_eq, dbl114_eq,
    fpRound_a_idem, fpRound_b_idem, fpRound_c_idem, s1_eq, s2_eq]
  have hfl : Int.floor (9007199254740991 / 9007199254740992 : ℚ) = 0 :=
    Int.floor_eq_iff.mpr ⟨by norm_num, by norm_num⟩
  rw [hfl]
  rfl

/-- C7 is violated by the code: `grayscale` is not idempotent under the
program's binary64 arithmetic.  The double literals `0.299 + 0.587 + 0.114`
sum to `(2^53 - 1)/2^53 < 1`, so the single-pixel raster `(0, 0, 9)` maps to
the gray pixel `(1, 1, 1)` (luma `≈ 1.026`), and a second application maps
`(1, 1, 1)` to `(0, 0, 0)` (luma `≈ 0.99999999999999989 < 1`): applying the
kernel twice differs from applying it once. -/
theorem c7_grayscale_not_idempotent_binary64 :
    grayscaleD [0, 0, 9, 255] 1 1 = [1, 1, 1, 255] ∧
    grayscaleD (grayscaleD [0, 0, 9, 255] 1 1) 1 1 = [0, 0, 0, 255] ∧
    ([0, 0, 0, 255] : List ℕ) ≠ [1, 1, 1, 255] := by
  have h1 : grayscaleD [0, 0, 9, 255] 1 1 = [1, 1, 1, 255] := by
    simp [grayscaleD, mapPixLoop, grayPixD, lumaByteD_009]
  have h2 : grayscaleD [1, 1, 1, 255] 1 1 = [0, 0, 0, 255] := by
    simp [grayscaleD, mapPixLoop, grayPixD, lumaByteD_111]
  exact ⟨h1, by rw [h1, h2], by decide⟩

theorem fpRound_absorb_1e20 : fpRound (-(10^20 : ℚ) + 360) = -(10^20 : ℚ) := by
  have harg : (-(10^20 : ℚ) + 360) = -(10^20 - 360 : ℚ) := by ring
  rw [harg]
  have h := fpRound_eval_neg (10^20 - 360 : ℚ) 66 (6103515624999999 + 1)
    (by norm_num) (by norm_num) (by norm_num)
    (by apply roundEven_up <;> norm_num)
  rw [h]
  norm_num

/-- C10 is violated by the code: the hue-normalisation loop of `hueRotate`
does not terminate for every finite `angleDegrees`.  For a hue of 0 (e.g. a
black pixel) and `angleDegrees = -1e20`, the loop variable starts at the
exactly representable double `-1e20`, and the binary64 addition
`hsl.h += 360.0` is absorbed (`360` is below half an ulp, `2^13`), so
`hsl.h` is a fixpoint of the loop body: after any number of iterations the
guard `hsl.h < 0` still holds and the loop never exits. -/
theorem c10_hue_loop_not_terminating :
    hueStepD (-(10^20 : ℚ)) = -(10^20 : ℚ) ∧
    ∀ n : ℕ, hueStepD^[n] (-(10^20 : ℚ)) < 0 := by
  have hfix : hueStepD (-(10^20 : ℚ)) = -(10^20 : ℚ) := by
    unfold hueStepD
    exact fpRound_absorb_1e20
  refine ⟨hfix, fun n => ?_⟩
  rw [Function.iterate_fixed hfix n]
  norm_num
